import Mathlib

/-!
Verification of the ai-review-system repository (a study-note quiz generator:
question generation and scoring clients over a remote text-generation model,
plus a relational question repository).

The Python sources are shallowly embedded:
strings are lists of characters with the relevant Python string methods
modelled on them; JSON values are an inductive type with an executable
serializer mirroring json.dumps (default separators, ensure_ascii disabled)
and an executable fueled recursive-descent decoder mirroring json.loads;
the sqlite store is a record of row lists; randomized ordering
(ORDER BY RANDOM) is a permutation parameter; remote calls are a parameter
of type Option Json, with none standing for any transport, HTTP-status or
body-decoding failure (a raised exception before the body is inspected);
every Python code path that raises inside a try block is modelled by
propagating none through Option.
-/

namespace AiReview

/-- Python strings are modelled as lists of unicode characters. -/
abbrev Str := List Char

/-- Whitespace recognized by Python str.strip with no argument
(the ASCII whitespace characters; exotic unicode spaces are outside the
model, no claim mentions them). -/
def isPySpace (c : Char) : Bool :=
  c = ' ' || c = '\t' || c = '\n' || c = '\r' || c = Char.ofNat 11 || c = Char.ofNat 12

/-- Python s.strip(chars): drop characters satisfying p from both ends. -/
def pyStripP (p : Char → Bool) (s : Str) : Str :=
  (s.dropWhile p).rdropWhile p

/-- Python s.strip() with no argument: trim ASCII whitespace at both ends. -/
def pyStrip (s : Str) : Str := pyStripP isPySpace s

/-- The backquote character, written by code point. -/
def btick : Char := Char.ofNat 96

/-- Python s.strip used with the backquote argument in the fence cleanup. -/
def stripBticks (s : Str) : Str := pyStripP (fun c => c = btick) s

/-- Python s.replace(pat, empty, 1): remove the first occurrence of pat. -/
def replaceFirst (pat : Str) : Str → Str
  | [] => []
  | c :: r =>
    if (c :: r).take pat.length = pat then (c :: r).drop pat.length
    else c :: replaceFirst pat r

/-- JSON values, as produced by decoding a remote response body. -/
inductive Json where
  | null : Json
  | bool (b : Bool) : Json
  | num (q : ℚ) : Json
  | str (s : Str) : Json
  | arr (xs : List Json) : Json
  | obj (fields : List (Str × Json)) : Json

/-- Python truthiness of a decoded JSON value. -/
def jsonTruthy : Json → Bool
  | Json.null => false
  | Json.bool b => b
  | Json.num q => decide (q ≠ 0)
  | Json.str s => !s.isEmpty
  | Json.arr xs => !xs.isEmpty
  | Json.obj f => !f.isEmpty

mutual
/-- Boolean equality of JSON values. -/
def jeq : Json → Json → Bool
  | Json.null, Json.null => true
  | Json.bool a, Json.bool b => a == b
  | Json.num a, Json.num b => a == b
  | Json.str a, Json.str b => a == b
  | Json.arr a, Json.arr b => jeqList a b
  | Json.obj a, Json.obj b => jeqFields a b
  | _, _ => false

/-- Boolean equality of JSON value lists. -/
def jeqList : List Json → List Json → Bool
  | [], [] => true
  | a :: as, b :: bs => jeq a b && jeqList as bs
  | _, _ => false

/-- Boolean equality of JSON field lists. -/
def jeqFields : List (Str × Json) → List (Str × Json) → Bool
  | [], [] => true
  | a :: as, b :: bs => (a.1 == b.1 && jeq a.2 b.2) && jeqFields as bs
  | _, _ => false
end

mutual
/-- jeq decides equality of JSON values. -/
theorem jeq_iff : ∀ a b : Json, jeq a b = true ↔ a = b
  | Json.null, b => by cases b <;> simp [jeq]
  | Json.bool a, b => by cases b <;> simp [jeq]
  | Json.num a, b => by cases b <;> simp [jeq]
  | Json.str a, b => by cases b <;> simp [jeq]
  | Json.arr a, b => by
    cases b with
    | arr bs =>
      rw [jeq, jeqList_iff a bs]
      simp
    | null => simp [jeq]
    | bool b => simp [jeq]
    | num q => simp [jeq]
    | str s => simp [jeq]
    | obj fs => simp [jeq]
  | Json.obj a, b => by
    cases b with
    | obj bs =>
      rw [jeq, jeqFields_iff a bs]
      simp
    | null => simp [jeq]
    | bool b => simp [jeq]
    | num q => simp [jeq]
    | str s => simp [jeq]
    | arr xs => simp [jeq]

/-- jeqList decides equality of JSON value lists. -/
theorem jeqList_iff : ∀ as bs : List Json, jeqList as bs = true ↔ as = bs
  | [], [] => by simp [jeqList]
  | [], b :: bs => by simp [jeqList]
  | a :: as, [] => by simp [jeqList]
  | a :: as, b :: bs => by
    rw [jeqList, Bool.and_eq_true, jeq_iff a b, jeqList_iff as bs]
    simp

/-- jeqFields decides equality of JSON field lists. -/
theorem jeqFields_iff : ∀ as bs : List (Str × Json), jeqFields as bs = true ↔ as = bs
  | [], [] => by simp [jeqFields]
  | [], b :: bs => by simp [jeqFields]
  | a :: as, [] => by simp [jeqFields]
  | a :: as, b :: bs => by
    rw [jeqFields, Bool.and_eq_true, Bool.and_eq_true, jeq_iff a.2 b.2, jeqFields_iff as bs]
    constructor
    · rintro ⟨⟨h1, h2⟩, h3⟩
      subst h3
      have h4 : a.1 = b.1 := by simpa using h1
      have h5 : a = b := Prod.ext h4 h2
      rw [h5]
    · intro h
      injection h with h1 h2
      subst h2
      subst h1
      exact ⟨⟨by simp, rfl⟩, rfl⟩

end

/-- Decidable equality of JSON values, through jeq. -/
instance : DecidableEq Json := fun a b => decidable_of_iff _ (jeq_iff a b)

/-- Python dict lookup on a decoded JSON object: with duplicate keys the
last binding wins, as in the dict produced by json.loads. -/
def jget (fields : List (Str × Json)) (k : Str) : Option Json :=
  fields.foldl (fun acc kv => if kv.1 = k then some kv.2 else acc) none

/-- Python dict.get(k, default) on a decoded JSON object. -/
def jgetD (fields : List (Str × Json)) (k : Str) (d : Json) : Json :=
  (jget fields k).getD d

/-- Membership test k in dict. -/
def jhasKey (fields : List (Str × Json)) (k : Str) : Bool :=
  fields.any (fun kv => kv.1 = k)

mutual
/-- CozeClient._extract_first_str: depth-first scan of a decoded response
for a string; a string found at the top level is returned as is, while a
falsy (empty) string bubbling up from a child is skipped, exactly as the
truthiness test in the Python loop does. -/
def extract_first_str : Json → Option Str
  | Json.str s => some s
  | Json.obj fields => extractFromFields fields
  | Json.arr xs => extractFromList xs
  | _ => none

/-- Scan of the values of a dict, in order, as in the Python for loop. -/
def extractFromFields : List (Str × Json) → Option Str
  | [] => none
  | kv :: rest =>
    match extract_first_str kv.2 with
    | some s => if s.isEmpty then extractFromFields rest else some s
    | none => extractFromFields rest

/-- Scan of the items of a list, in order. -/
def extractFromList : List Json → Option Str
  | [] => none
  | v :: rest =>
    match extract_first_str v with
    | some s => if s.isEmpty then extractFromList rest else some s
    | none => extractFromList rest
end

/-! JSON decoding, modelling json.loads. The decoder is a fueled
recursive-descent parser over the JSON grammar; fuel only bounds nesting
and list length, and loads supplies more fuel than any input can consume.
Two deliberate model simplifications, both irrelevant to every claim and
noted here: unicode escapes of the form backslash-u-XXXX are rejected
rather than decoded, and leading zeros in numbers are accepted rather
than rejected. -/

/-- JSON whitespace (also what json.loads skips around tokens). -/
def isJWs (c : Char) : Bool := c = ' ' || c = '\t' || c = '\n' || c = '\r'

/-- Skip JSON whitespace. -/
def skipWs (s : Str) : Str := s.dropWhile isJWs

/-- Decode the body of a JSON string literal after the opening quote,
returning the decoded characters and the input after the closing quote. -/
def parseStrBody : Str → Option (Str × Str)
  | [] => none
  | c :: r =>
    if c = '"' then some ([], r)
    else if c = '\\' then
      match r with
      | [] => none
      | e :: r2 =>
        let dec : Option Char :=
          if e = '"' then some '"'
          else if e = '\\' then some '\\'
          else if e = '/' then some '/'
          else if e = 'n' then some '\n'
          else if e = 't' then some '\t'
          else if e = 'r' then some '\r'
          else if e = 'b' then some (Char.ofNat 8)
          else if e = 'f' then some (Char.ofNat 12)
          else none
        match dec with
        | some d => (parseStrBody r2).map (fun p => (d :: p.1, p.2))
        | none => none
    else if c.toNat < 32 then none
    else (parseStrBody r).map (fun p => (c :: p.1, p.2))

/-- Numeric value of a digit string. -/
def parseNatVal (ds : Str) : Nat := ds.foldl (fun a c => a * 10 + (c.toNat - 48)) 0

/-- Value of a fractional digit string. -/
def fracVal (ds : Str) : ℚ := (parseNatVal ds : ℚ) / ((10 : ℚ) ^ ds.length)

/-- Parse an optional exponent part and finish the number. -/
def parseExpPart (q : ℚ) (s : Str) : Option (ℚ × Str) :=
  match s with
  | 'e' :: r =>
    match r with
    | '+' :: r2 =>
      let ds := r2.takeWhile Char.isDigit
      if ds.isEmpty then none
      else some (q * (10 : ℚ) ^ ((parseNatVal ds : Int)), r2.dropWhile Char.isDigit)
    | '-' :: r2 =>
      let ds := r2.takeWhile Char.isDigit
      if ds.isEmpty then none
      else some (q * (10 : ℚ) ^ (-(parseNatVal ds : Int)), r2.dropWhile Char.isDigit)
    | _ =>
      let ds := r.takeWhile Char.isDigit
      if ds.isEmpty then none
      else some (q * (10 : ℚ) ^ ((parseNatVal ds : Int)), r.dropWhile Char.isDigit)
  | 'E' :: r =>
    match r with
    | '+' :: r2 =>
      let ds := r2.takeWhile Char.isDigit
      if ds.isEmpty then none
      else some (q * (10 : ℚ) ^ ((parseNatVal ds : Int)), r2.dropWhile Char.isDigit)
    | '-' :: r2 =>
      let ds := r2.takeWhile Char.isDigit
      if ds.isEmpty then none
      else some (q * (10 : ℚ) ^ (-(parseNatVal ds : Int)), r2.dropWhile Char.isDigit)
    | _ =>
      let ds := r.takeWhile Char.isDigit
      if ds.isEmpty then none
      else some (q * (10 : ℚ) ^ ((parseNatVal ds : Int)), r.dropWhile Char.isDigit)
  | _ => some (q, s)

/-- Parse an unsigned JSON number (integer part, optional fraction,
optional exponent). -/
def parseUNumBody (s : Str) : Option (ℚ × Str) :=
  let ds := s.takeWhile Char.isDigit
  let r1 := s.dropWhile Char.isDigit
  if ds.isEmpty then none
  else
    match r1 with
    | '.' :: r =>
      let fs := r.takeWhile Char.isDigit
      if fs.isEmpty then none
      else parseExpPart ((parseNatVal ds : ℚ) + fracVal fs) (r.dropWhile Char.isDigit)
    | _ => parseExpPart (parseNatVal ds : ℚ) r1

/-- Parse a JSON number with optional leading minus sign. -/
def parseNum : Str → Option (Json × Str)
  | [] => none
  | c :: r =>
    if c = '-' then (parseUNumBody r).map (fun p => (Json.num (-p.1), p.2))
    else (parseUNumBody (c :: r)).map (fun p => (Json.num p.1, p.2))

mutual
/-- Parse one JSON value; fuel decreases on every recursive step. -/
def parseVal : Nat → Str → Option (Json × Str)
  | 0, _ => none
  | fuel + 1, s0 =>
    match skipWs s0 with
    | [] => none
    | c :: r =>
      if c = '"' then (parseStrBody r).map (fun p => (Json.str p.1, p.2))
      else if c = '[' then
        match skipWs r with
        | ']' :: r2 => some (Json.arr [], r2)
        | r2 => (parseElems fuel r2).map (fun p => (Json.arr p.1, p.2))
      else if c = '{' then
        match skipWs r with
        | '}' :: r2 => some (Json.obj [], r2)
        | r2 => (parseFields fuel r2).map (fun p => (Json.obj p.1, p.2))
      else if c = 't' then
        match r with
        | 'r' :: 'u' :: 'e' :: r2 => some (Json.bool true, r2)
        | _ => none
      else if c = 'f' then
        match r with
        | 'a' :: 'l' :: 's' :: 'e' :: r2 => some (Json.bool false, r2)
        | _ => none
      else if c = 'n' then
        match r with
        | 'u' :: 'l' :: 'l' :: r2 => some (Json.null, r2)
        | _ => none
      else parseNum (c :: r)

/-- Parse the elements of a non-empty JSON array up to the closing bracket. -/
def parseElems : Nat → Str → Option (List Json × Str)
  | 0, _ => none
  | fuel + 1, s =>
    match parseVal fuel s with
    | none => none
    | some (v, r) =>
      match skipWs r with
      | ',' :: r2 =>
        match parseElems fuel r2 with
        | none => none
        | some (xs, r3) => some (v :: xs, r3)
      | ']' :: r2 => some ([v], r2)
      | _ => none

/-- Parse the fields of a non-empty JSON object up to the closing brace. -/
def parseFields : Nat → Str → Option (List (Str × Json) × Str)
  | 0, _ => none
  | fuel + 1, s =>
    match skipWs s with
    | '"' :: r =>
      match parseStrBody r with
      | none => none
      | some (k, r1) =>
        match skipWs r1 with
        | ':' :: r2 =>
          match parseVal fuel r2 with
          | none => none
          | some (v, r3) =>
            match skipWs r3 with
            | ',' :: r4 =>
              match parseFields fuel r4 with
              | none => none
              | some (fs, r5) => some ((k, v) :: fs, r5)
            | '}' :: r4 => some ([(k, v)], r4)
            | _ => none
        | _ => none
    | _ => none
end

/-- Model of json.loads: decode one value and require only whitespace
after it, failing (an exception in Python) otherwise. -/
def loads (s : Str) : Option Json :=
  match parseVal (s.length + 1) s with
  | some (v, rest) => if (skipWs rest).isEmpty then some v else none
  | none => none

/-! JSON encoding, modelling json.dumps with its default separators
(comma-space and colon-space) and ensure_ascii disabled (characters are
written raw). Control characters other than the five with short escapes,
and non-integer numbers, are excluded by the serializability predicate
below: the former would need unicode escapes, the latter a binary
floating-point repr, and neither occurs in the data the claims range
over. -/

/-- Decimal digits of n, by fuel (n+1 digits is always enough). -/
def natDigitsAux : Nat → Nat → Str
  | 0, _ => []
  | fuel + 1, n =>
    if n < 10 then [Char.ofNat (48 + n)]
    else natDigitsAux fuel (n / 10) ++ [Char.ofNat (48 + n % 10)]

/-- Decimal digits of a natural number. -/
def natDigits (n : Nat) : Str := natDigitsAux (n + 1) n

mutual
/-- Encode a JSON value as json.dumps does. -/
def dumps : Json → Str
  | Json.null => ['n', 'u', 'l', 'l']
  | Json.bool true => ['t', 'r', 'u', 'e']
  | Json.bool false => ['f', 'a', 'l', 's', 'e']
  | Json.num q => if q.num < 0 then '-' :: natDigits q.num.natAbs else natDigits q.num.natAbs
  | Json.str s => '"' :: escBody s
  | Json.arr [] => ['[', ']']
  | Json.arr (x :: xs) => '[' :: (dumps x ++ dumpsTail xs) ++ [']']
  | Json.obj [] => ['{', '}']
  | Json.obj (f :: fs) => '{' :: (dumpsField f ++ dumpsFieldsTail fs) ++ ['}']

/-- Encode the body of a string literal, closing quote included. -/
def escBody : Str → Str
  | [] => ['"']
  | c :: r =>
    (if c = '"' then ['\\', '"']
     else if c = '\\' then ['\\', '\\']
     else if c = '\n' then ['\\', 'n']
     else if c = '\t' then ['\\', 't']
     else if c = '\r' then ['\\', 'r']
     else if c = Char.ofNat 8 then ['\\', 'b']
     else if c = Char.ofNat 12 then ['\\', 'f']
     else [c]) ++ escBody r

/-- Encode one object field. -/
def dumpsField : Str × Json → Str
  | (k, v) => ('"' :: escBody k) ++ (':' :: ' ' :: dumps v)

/-- Encode the remaining array elements, each preceded by a separator. -/
def dumpsTail : List Json → Str
  | [] => []
  | x :: xs => ',' :: ' ' :: (dumps x ++ dumpsTail xs)

/-- Encode the remaining object fields, each preceded by a separator. -/
def dumpsFieldsTail : List (Str × Json) → Str
  | [] => []
  | f :: fs => ',' :: ' ' :: (dumpsField f ++ dumpsFieldsTail fs)
end

/-- Characters representable by the modelled encoder: everything at or
above the space character, plus the five control characters with short
escapes. -/
def okChar (c : Char) : Bool :=
  decide (32 ≤ c.toNat) || c = '\n' || c = '\t' || c = '\r' || c = Char.ofNat 8 || c = Char.ofNat 12

mutual
/-- Values the modelled encoder represents exactly: integer numbers and
strings of representable characters. A Python float with a finite decimal
repr would also round-trip through the real json module; the claims only
exercise option lists, which contain no numbers at all. -/
def serOk : Json → Bool
  | Json.null => true
  | Json.bool _ => true
  | Json.num q => decide (q.den = 1)
  | Json.str s => s.all okChar
  | Json.arr xs => serOkList xs
  | Json.obj fs => serOkFields fs

/-- Serializability of every element of a list. -/
def serOkList : List Json → Bool
  | [] => true
  | x :: xs => serOk x && serOkList xs

/-- Serializability of every field of an object. -/
def serOkFields : List (Str × Json) → Bool
  | [] => true
  | f :: fs => f.1.all okChar && serOk f.2 && serOkFields fs
end

/-! Generation and scoring client. CozeClient (coze_client.py) and
DashScopeClient (dashscope_client.py) are line-for-line duplicates of one
another in everything the claims mention, so a single embedding serves
both. The remote call is abstracted: a value of type Option Json stands
for the decoded body of the HTTP response, with none covering every
failure that raises before the body is inspected (missing network,
non-2xx status via raise_for_status, or a body that is not JSON). -/

/-- Python .strip() dispatch: only strings have the method; calling it on
any other decoded value raises, which the surrounding try swallows. -/
def asStr : Json → Option Str
  | Json.str s => some s
  | _ => none

/-- Fence cleanup applied to the stripped payload text: when the text
starts with three backquotes, all leading and trailing backquotes are
stripped, then the first occurrence of the four characters j s o n
anywhere in the text is removed, then whitespace is stripped again. -/
def cleanFence (t : Str) : Str :=
  if t.take 3 = [btick, btick, btick] then
    pyStrip (replaceFirst ('j' :: 's' :: 'o' :: 'n' :: []) (stripBticks t))
  else t

/-- Envelope inspection shared by generation and scoring: try
output.choices[0].text when choices is a non-empty list, else output.text
when the key exists, then fall back to the depth-first string scan of the
whole response when the envelope gave nothing truthy. The outer none
models the AttributeError raised when .get is called on a non-dict (a
non-object response body, or a first choices element that is not an
object); some none models the code path that returns the empty default
because no truthy text was found. -/
def getOutputText (data : Json) : Option (Option Json) :=
  match data with
  | Json.obj o =>
    let fromEnv : Option (Option Json) :=
      match jget o ("output".data) with
      | some (Json.obj oo) =>
        match jget oo ("choices".data) with
        | some (Json.arr (c :: _)) =>
          match c with
          | Json.obj co => some (jget co ("text".data))
          | _ => none
        | _ => if jhasKey oo ("text".data) then some (jget oo ("text".data)) else some none
      | _ => some none
    match fromEnv with
    | none => none
    | some ot0 =>
      let ot1 : Option Json :=
        match ot0 with
        | some v => if jsonTruthy v then some v else none
        | none => none
      match ot1 with
      | some v => some (some v)
      | none =>
        match extract_first_str data with
        | some s => if s.isEmpty then some none else some (some (Json.str s))
        | none => some none
  | _ => none

/-- QuestionDraft as assembled by the generation client: each field holds
the raw decoded JSON value found in the model output element. -/
structure RawDraft where
  knowledge_tag : Json
  q_type : Json
  content : Json
  options : Json
  answer : Json
  analysis : Json
  difficulty : Json
deriving DecidableEq

/-- Projection of one decoded array element into a draft: mapping
elements are projected with per-field defaults (empty string, and for
options the empty list, also substituted when the stored value is falsy),
any other element is skipped. -/
def draftOfJson : Json → Option RawDraft
  | Json.obj o => some {
      knowledge_tag := jgetD o ("knowledge_tag".data) (Json.str []),
      q_type := jgetD o ("q_type".data) (Json.str []),
      content := jgetD o ("content".data) (Json.str []),
      options :=
        (let v := jgetD o ("options".data) (Json.arr []);
         if jsonTruthy v then v else Json.arr []),
      answer := jgetD o ("answer".data) (Json.str []),
      analysis := jgetD o ("analysis".data) (Json.str []),
      difficulty := jgetD o ("difficulty".data) (Json.str []) }
  | _ => none

/-- Generation tail after a text payload was obtained: clean the fence,
decode as JSON (none models the decode exception), and when the decoded
value is a list project its elements; a decoded non-list yields the empty
result. -/
def parseQuestionsText (t : Str) : Option (List RawDraft) :=
  match loads (cleanFence (pyStrip t)) with
  | none => none
  | some (Json.arr xs) => some (xs.filterMap draftOfJson)
  | some _ => some []

/-- CozeClient.generate_questions_from_note and its DashScopeClient twin,
observed at the level the claims speak about: the configured credential
and the decoded remote response determine the returned draft list. The
prompt construction influences only the remote text, which is already
abstracted inside resp. The function is total: every failure path of the
Python code is a modelled branch returning the empty list. -/
def generate_questions_from_note (api_key : Str) (resp : Option Json) : List RawDraft :=
  if api_key.isEmpty then []
  else
    match resp with
    | none => []
    | some data =>
      match getOutputText data with
      | none => []
      | some none => []
      | some (some v) =>
        match asStr v with
        | none => []
        | some t =>
          match parseQuestionsText t with
          | none => []
          | some drafts => drafts

/-- Diagnostic for a missing credential. -/
def msgNoApiKey : Str := ("未配置 DashScope API Key，无法进行评分。".data)

/-- Diagnostic when no usable text payload was found. -/
def msgNoContent : Str := ("评分失败，模型未返回内容。".data)

/-- Diagnostic for every exception caught during scoring. -/
def msgScoreFail : Str := ("评分失败，暂时按错误处理。".data)

/-- Placeholder comment substituted for an empty one. -/
def msgNoComment : Str := ("无详细点评。".data)

/-- Python float() of a string: optional sign, digits, optional fraction
and exponent, surrounded by optional whitespace. Special forms such as
inf and nan, and forms with a bare leading or trailing dot, are outside
the model; no claim exercises them. -/
def pyFloatOfStr (s : Str) : Option ℚ :=
  let body : Str → Option ℚ := fun r =>
    match parseUNumBody r with
    | some (q, rest) => if rest.isEmpty then some q else none
    | none => none
  match pyStrip s with
  | '-' :: r => (body r).map Neg.neg
  | '+' :: r => body r
  | r => body r

/-- Python float() of a decoded JSON value: numbers and booleans convert,
numeric strings are parsed, anything else raises. -/
def pyFloat : Json → Option ℚ
  | Json.num q => some q
  | Json.bool b => some (if b then 1 else 0)
  | Json.str s => pyFloatOfStr s
  | _ => none

/-- Python str() of a decoded JSON value. Strings, booleans, null and
integers render exactly; the rendering of containers and non-integer
numbers approximates repr and is never reached by any claim (the comment
values the claims range over are strings). -/
def pyStr : Json → Str
  | Json.str s => s
  | Json.bool true => ("True".data)
  | Json.bool false => ("False".data)
  | Json.null => ("None".data)
  | Json.num q => dumps (Json.num q)
  | Json.arr xs => dumps (Json.arr xs)
  | Json.obj fs => dumps (Json.obj fs)

/-- Scoring tail after the payload decoded to js: js.get raises unless js
is a dict; float(js.get(score, 0)) with default 0; the comment is
str(js.get(comment, empty)) with the placeholder substituted when falsy;
a score above 1 is divided by 100; the result is clamped to the unit
interval. -/
def scoreOfPayload (js : Json) : Option (ℚ × Str) :=
  match js with
  | Json.obj o =>
    match pyFloat (jgetD o ("score".data) (Json.num 0)) with
    | none => none
    | some score0 =>
      let c0 := pyStr (jgetD o ("comment".data) (Json.str []))
      let comment := if c0.isEmpty then msgNoComment else c0
      let score1 := if score0 > 1 then score0 / 100 else score0
      some (max 0 (min 1 score1), comment)
  | _ => none

/-- CozeClient.score_answer and its DashScopeClient twin. The graded
question and answer influence only the outbound prompt, already
abstracted inside resp. Total: every Python exception path is a modelled
branch returning the zero score with the fixed diagnostic. -/
def score_answer (api_key : Str) (resp : Option Json) : ℚ × Str :=
  if api_key.isEmpty then (0, msgNoApiKey)
  else
    match resp with
    | none => (0, msgScoreFail)
    | some data =>
      match getOutputText data with
      | none => (0, msgScoreFail)
      | some none => (0, msgNoContent)
      | some (some v) =>
        match asStr v with
        | none => (0, msgScoreFail)
        | some t =>
          match loads (cleanFence (pyStrip t)) with
          | none => (0, msgScoreFail)
          | some js =>
            match scoreOfPayload js with
            | none => (0, msgScoreFail)
            | some r => r

/-! Answer grading for single choice questions (app.py, api_submit_answer). -/

/-- The normalize_choice closure of app.py: strip, then if the uppercased
first character is a letter between A and Z use it as the comparison key,
otherwise use the whole stripped string. Char.toUpper maps exactly the
ASCII lowercase letters, like Python str.upper does on ASCII input;
non-ASCII case mapping is outside the model and not exercised by any
claim. -/
def normalize_choice (s : Str) : Str :=
  match pyStrip s with
  | [] => []
  | c :: rest => if 'A' ≤ c.toUpper ∧ c.toUpper ≤ 'Z' then [c.toUpper] else c :: rest

/-- Single-choice grading in api_submit_answer: both the submitted and
the stored answer are stripped and normalized, equality of the normalized
forms is correctness. -/
def gradeSingleChoice (ua sa : Str) : Bool :=
  decide (normalize_choice (pyStrip ua) = normalize_choice (pyStrip sa))

/-! Persistence store (database.py schema) and question repository
(models.py). Timestamps are abstract naturals; the strftime week key of
the stats query is an uninterpreted function of the timestamp. -/

/-- Row of the notes table. -/
structure NoteRow where
  id : Nat
  title : Str
  path : Str
  created_at : Nat
deriving DecidableEq

/-- Row of the questions table; options holds the JSON-encoded text of
the options list, none modelling an SQL NULL. The created_at column of
this table is read by no modelled query and is omitted. -/
structure QuestionRow where
  id : Nat
  note_id : Nat
  knowledge_tag : Str
  q_type : Str
  content : Str
  options : Option Str
  answer : Str
  analysis : Str
  difficulty : Str
deriving DecidableEq

/-- Row of the user_answers table. -/
structure AnswerRow where
  id : Nat
  question_id : Nat
  user_answer : Str
  is_correct : Bool
  created_at : Nat
deriving DecidableEq

/-- The sqlite database: the three tables plus the questions
autoincrement counter. -/
structure DB where
  notes : List NoteRow
  questions : List QuestionRow
  answers : List AnswerRow
  next_qid : Nat
deriving DecidableEq

/-- Draft as consumed by insert_question_batch. The text columns of the
schema have TEXT affinity and the generation contract produces strings
for every field except options, so the textual fields are modelled as
strings; options is the arbitrary JSON value that insert serializes. -/
structure Draft where
  knowledge_tag : Str := []
  q_type : Str := []
  content : Str := []
  options : Json := Json.arr []
  answer : Str := []
  analysis : Str := []
  difficulty : Str := []
deriving DecidableEq

/-- The dedup snapshot read at the top of insert_question_batch: every
stored content that is truthy (non-empty). -/
def existingContents (qs : List QuestionRow) : List Str :=
  qs.filterMap (fun q => if q.content = [] then none else some q.content)

/-- The row INSERT of insert_question_batch, options JSON-encoded. -/
def mkQuestionRow (note_id qid : Nat) (d : Draft) : QuestionRow :=
  { id := qid, note_id := note_id, knowledge_tag := d.knowledge_tag,
    q_type := d.q_type, content := d.content,
    options := some (dumps d.options),
    answer := d.answer, analysis := d.analysis, difficulty := d.difficulty }

/-- The draft loop of insert_question_batch: skip drafts with falsy
content, skip contents already seen (in the snapshot or added earlier in
the same batch), insert the rest with consecutive fresh ids. -/
def insertLoop (note_id : Nat) : List Str → Nat → List Draft → List QuestionRow
  | _, _, [] => []
  | existing, nextId, d :: ds =>
    if d.content = [] then insertLoop note_id existing nextId ds
    else if d.content ∈ existing then insertLoop note_id existing nextId ds
    else mkQuestionRow note_id nextId d :: insertLoop note_id (d.content :: existing) (nextId + 1) ds

/-- models.insert_question_batch. -/
def insert_question_batch (db : DB) (note_id : Nat) (drafts : List Draft) : DB :=
  let newRows := insertLoop note_id (existingContents db.questions) db.next_qid drafts
  { db with questions := db.questions ++ newRows,
            next_qid := db.next_qid + newRows.length }

/-- A sequence of insert_question_batch calls. -/
def runBatches (db : DB) : List (Nat × List Draft) → DB
  | [] => db
  | b :: rest => runBatches (insert_question_batch db b.1 b.2) rest

/-- Number of stored questions carrying a given content. -/
def contentCount (db : DB) (c : Str) : Nat :=
  db.questions.countP (fun q => q.content == c)

/-- The dedup invariant: no two stored questions share identical
non-empty content. -/
def ContentInv (db : DB) : Prop :=
  ((db.questions.map (fun q => q.content)).filter (fun c => !c.isEmpty)).Nodup

/-- Question dict assembled by _row_to_question_dict, options decoded. -/
structure QuestionDict where
  id : Nat
  note_id : Nat
  knowledge_tag : Str
  q_type : Str
  content : Str
  options : Json
  answer : Str
  analysis : Str
  difficulty : Str
deriving DecidableEq

/-- models._row_to_question_dict: decode the stored options text, an SQL
NULL or empty text decoding as the empty list; none models the exception
raised when the stored text is not valid JSON. -/
def row_to_question_dict (r : QuestionRow) : Option QuestionDict :=
  let otext :=
    match r.options with
    | none => ['[', ']']
    | some s => if s.isEmpty then ['[', ']'] else s
  (loads otext).map (fun ov =>
    { id := r.id, note_id := r.note_id, knowledge_tag := r.knowledge_tag,
      q_type := r.q_type, content := r.content, options := ov,
      answer := r.answer, analysis := r.analysis, difficulty := r.difficulty })

/-- models.get_question_by_id: the outer layer models an exception while
decoding, the inner layer the Python None for an unknown id. -/
def get_question_by_id (db : DB) (qid : Nat) : Option (Option QuestionDict) :=
  match db.questions.find? (fun r => r.id == qid) with
  | none => some none
  | some r => (row_to_question_dict r).map some

/-- The ORDER BY created_at DESC LIMIT 1 row of the notes table: a note
with maximal creation time (the first such in table order on ties, which
sqlite leaves unspecified). -/
def latestNote (ns : List NoteRow) : Option NoteRow :=
  ns.foldl (fun acc n =>
    match acc with
    | none => some n
    | some m => if m.created_at < n.created_at then some n else some m) none

/-- Scope resolution of get_questions_by_knowledge: an explicit note id
wins; else the latest note when scope is the word latest; else no
restriction. -/
def resolveScope (db : DB) (note_id : Option Nat) (scope : Option Str) : Option Nat :=
  match note_id with
  | some n => some n
  | none =>
    if scope = some ("latest".data) then (latestNote db.notes).map (fun n => n.id) else none

/-- The WHERE clause built by get_questions_by_knowledge. -/
def rowMatches (resolved : Option Nat) (tags : List Str) (q_type : Option Str)
    (q : QuestionRow) : Bool :=
  (match resolved with
   | some nid => q.note_id == nid
   | none => true) &&
  (if tags.isEmpty then true else tags.contains q.knowledge_tag) &&
  (match q_type with
   | some t =>
     if t = ("single_choice".data) ∨ t = ("short_answer".data) then q.q_type == t else true
   | none => true)

/-- models.get_questions_by_knowledge. ORDER BY RANDOM() is modelled by
the shuffle parameter, an arbitrary reordering of the filtered rows; the
theorems assume only that it permutes its input. -/
def get_questions_by_knowledge (shuffle : List QuestionRow → List QuestionRow)
    (db : DB) (tags : List Str) (limit : Nat)
    (note_id : Option Nat) (scope : Option Str) (q_type : Option Str) :
    Option (List QuestionDict) :=
  let resolved := resolveScope db note_id scope
  ((shuffle (db.questions.filter (rowMatches resolved tags q_type))).take limit).mapM
    row_to_question_dict

/-- models.delete_note: collect the ids of the questions of the note,
delete the answers referencing them (the Python code skips the DELETE
when the id list is empty, modelled by the same branch), then the
questions, then the note. -/
def delete_note (db : DB) (note_id : Nat) : DB :=
  let q_ids := (db.questions.filter (fun q => q.note_id == note_id)).map (fun q => q.id)
  let answers2 :=
    if q_ids.isEmpty then db.answers
    else db.answers.filter (fun a => !(q_ids.contains a.question_id))
  { db with
    answers := answers2,
    questions := db.questions.filter (fun q => !(q.note_id == note_id)),
    notes := db.notes.filter (fun n => !(n.id == note_id)) }

/-- One by_week bucket of the stats. -/
structure WeekBucket where
  week : Str
  total : Nat
  correct : Nat
  accuracy : ℚ
deriving DecidableEq

/-- The stats overview payload. -/
structure StatsOverview where
  total_answers : Nat
  correct_answers : Nat
  accuracy : ℚ
  by_week : List WeekBucket
deriving DecidableEq

/-- models.get_stats_by_week: group the answer rows by the week key of
their creation time (weekKey abstracts the strftime year-week format),
one bucket per distinct key, buckets ordered by key ascending as the SQL
GROUP BY with ORDER BY week produces them. -/
def get_stats_by_week (weekKey : Nat → Str) (db : DB) : List WeekBucket :=
  let keys := (db.answers.map (fun a => weekKey a.created_at)).dedup
  (List.insertionSort (fun a b : Str => a ≤ b) keys).map (fun w =>
    let g := db.answers.filter (fun a => weekKey a.created_at == w)
    let total := g.length
    let correct := g.countP (fun a => a.is_correct)
    { week := w, total := total, correct := correct,
      accuracy := if total = 0 then 0 else (correct : ℚ) / (total : ℚ) })

/-- models.get_stats_overview. -/
def get_stats_overview (weekKey : Nat → Str) (db : DB) : StatsOverview :=
  let total := db.answers.length
  let correct := db.answers.countP (fun a => a.is_correct)
  { total_answers := total, correct_answers := correct,
    accuracy := if total = 0 then 0 else (correct : ℚ) / (total : ℚ),
    by_week := get_stats_by_week weekKey db }

/-! Helper lemmas. -/

/-- Stripping is idempotent. -/
theorem pyStripP_idem (p : Char → Bool) (s : Str) :
    pyStripP p (pyStripP p s) = pyStripP p s := by
  unfold pyStripP
  set y := s.dropWhile p with hy
  have hyy : y.dropWhile p = y := by
    simpa [hy] using List.dropWhile_idempotent (l := s) (p := p)
  set z := y.rdropWhile p with hz
  have hzy : z <+: y := by simpa [hz] using List.rdropWhile_prefix (l := y) (p := p)
  have hzz : z.dropWhile p = z := by
    cases hzc : z with
    | nil => simp
    | cons c t =>
      obtain ⟨u, hu⟩ := hzy
      rw [hzc] at hu
      have hpc : p c = false := by
        cases hb : p c with
        | false => rfl
        | true =>
          exfalso
          have h1 : y.dropWhile p = (t ++ u).dropWhile p := by
            rw [← hu]
            simp [List.dropWhile_cons, hb]
          have hlen : y.length ≤ (t ++ u).length := by
            calc y.length = (y.dropWhile p).length := by rw [hyy]
              _ = ((t ++ u).dropWhile p).length := by rw [h1]
              _ ≤ (t ++ u).length := (List.dropWhile_sublist p).length_le
          rw [← hu] at hlen
          simp at hlen
      rw [List.dropWhile_cons, hpc]
      simp
  rw [hzz, hz, List.rdropWhile_idempotent]

/-- Normalization already strips, so pre-stripping changes nothing. -/
theorem normalize_choice_pyStrip (s : Str) :
    normalize_choice (pyStrip s) = normalize_choice s := by
  unfold normalize_choice pyStrip
  rw [pyStripP_idem]

/-- C2: single-choice grading normalizes each side by trimming, using the
uppercased first character as the key when it is a letter A to Z and the
trimmed string otherwise, and grades correct exactly on equal normalized
forms; in particular the letter-prefix example, the empty string, and the
full-option-text submission behave as stated. -/
theorem C2_single_choice_grading :
    (∀ ua sa : Str, gradeSingleChoice ua sa = true ↔ normalize_choice ua = normalize_choice sa)
    ∧ (∀ s c rest, pyStrip s = c :: rest →
        ('A' ≤ c.toUpper ∧ c.toUpper ≤ 'Z' → normalize_choice s = [c.toUpper])
        ∧ (¬ ('A' ≤ c.toUpper ∧ c.toUpper ≤ 'Z') → normalize_choice s = c :: rest))
    ∧ (∀ s, pyStrip s = [] → normalize_choice s = [])
    ∧ normalize_choice ("c. some text".data) = normalize_choice ("C".data)
    ∧ normalize_choice [] = []
    ∧ gradeSingleChoice ("C. Option text".data) ("C".data) = true := by
  refine ⟨?_, ?_, ?_, by decide, by decide, by decide⟩
  · intro ua sa
    unfold gradeSingleChoice
    rw [normalize_choice_pyStrip, normalize_choice_pyStrip]
    simp
  · intro s c rest h
    constructor
    · intro hc
      unfold normalize_choice
      rw [h]
      simp [hc]
    · intro hc
      unfold normalize_choice
      rw [h]
      simp [hc]
  · intro s h
    unfold normalize_choice
    rw [h]

/-- Membership in the answers table after delete_note. -/
theorem delete_note_answers_mem (db : DB) (n : Nat) (a : AnswerRow) :
    a ∈ (delete_note db n).answers ↔
      a ∈ db.answers ∧ ¬ ∃ q ∈ db.questions, q.note_id = n ∧ q.id = a.question_id := by
  simp only [delete_note]
  by_cases hempty :
      ((db.questions.filter (fun q => q.note_id == n)).map (fun q => q.id)).isEmpty = true
  · rw [if_pos hempty]
    have hnone : ∀ q ∈ db.questions, q.note_id ≠ n := by
      rw [List.isEmpty_iff, List.map_eq_nil_iff, List.filter_eq_nil_iff] at hempty
      intro q hqmem
      have := hempty q hqmem
      simpa using this
    constructor
    · intro ha
      refine ⟨ha, ?_⟩
      rintro ⟨q, hqmem, hqn, -⟩
      exact hnone q hqmem hqn
    · intro ha
      exact ha.1
  · rw [if_neg hempty]
    rw [List.mem_filter]
    constructor
    · rintro ⟨ha, hb⟩
      refine ⟨ha, ?_⟩
      rintro ⟨q, hqmem, hqn, hqid⟩
      have hin : a.question_id ∈
          (db.questions.filter (fun q => q.note_id == n)).map (fun q => q.id) := by
        rw [List.mem_map]
        exact ⟨q, List.mem_filter.2 ⟨hqmem, by simpa using hqn⟩, hqid⟩
      rw [← List.elem_iff] at hin
      simp only [List.contains, hin] at hb
      simp at hb
    · rintro ⟨ha, hb⟩
      refine ⟨ha, ?_⟩
      have hnotin : a.question_id ∉
          (db.questions.filter (fun q => q.note_id == n)).map (fun q => q.id) := by
        intro hin
        rw [List.mem_map] at hin
        obtain ⟨q, hqmem, hqid⟩ := hin
        rw [List.mem_filter] at hqmem
        exact hb ⟨q, hqmem.1, by simpa using hqmem.2, hqid⟩
      rw [← List.elem_iff] at hnotin
      have hfalse : List.elem a.question_id
          ((db.questions.filter (fun q => q.note_id == n)).map (fun q => q.id)) = false := by
        cases hel : List.elem a.question_id
            ((db.questions.filter (fun q => q.note_id == n)).map (fun q => q.id)) with
        | false => rfl
        | true => exact absurd hel hnotin
      simp only [List.contains, hfalse]
      rfl


/-- C7: delete_note removes exactly the answers referencing a question of
the note, the questions of the note, and the note itself, leaving every
other note, question, and answer untouched (the frame part about answers
of other notes uses uniqueness of question ids, which the autoincrement
primary key guarantees). -/
theorem C7_delete_note_cascade (db : DB) (n : Nat)
    (hq : (db.questions.map (fun q => q.id)).Nodup) :
    (delete_note db n).notes = db.notes.filter (fun m => !(m.id == n))
    ∧ (delete_note db n).questions = db.questions.filter (fun q => !(q.note_id == n))
    ∧ (∀ a ∈ db.answers,
        a ∈ (delete_note db n).answers ↔
          ¬ ∃ q ∈ db.questions, q.note_id = n ∧ q.id = a.question_id)
    ∧ (∀ a ∈ (delete_note db n).answers, a ∈ db.answers)
    ∧ (∀ a ∈ db.answers,
        (∃ q ∈ db.questions, q.id = a.question_id ∧ q.note_id ≠ n) →
          a ∈ (delete_note db n).answers) := by
  refine ⟨rfl, rfl, ?_, ?_, ?_⟩
  · intro a ha
    rw [delete_note_answers_mem]
    exact ⟨fun h => h.2, fun h => ⟨ha, h⟩⟩
  · intro a ha
    exact ((delete_note_answers_mem db n a).1 ha).1
  · intro a ha hother
    rw [delete_note_answers_mem]
    refine ⟨ha, ?_⟩
    rintro ⟨q, hqmem, hqn, hqid⟩
    obtain ⟨q2, hq2mem, hq2id, hq2n⟩ := hother
    have hqq : q = q2 :=
      List.inj_on_of_nodup_map hq hqmem hq2mem (by rw [hqid, hq2id])
    rw [hqq] at hqn
    exact hq2n hqn



/-- Folding the latest-note step from an initial candidate yields a note
among the candidates with maximal creation time. -/
theorem latestNote_foldl (ns : List NoteRow) :
    ∀ m0 : NoteRow, ∃ m,
      ns.foldl (fun acc n =>
        match acc with
        | none => some n
        | some m => if m.created_at < n.created_at then some n else some m) (some m0) = some m
      ∧ (m = m0 ∨ m ∈ ns)
      ∧ m0.created_at ≤ m.created_at
      ∧ ∀ x ∈ ns, x.created_at ≤ m.created_at := by
  induction ns with
  | nil => exact fun m0 => ⟨m0, rfl, Or.inl rfl, le_refl _, by simp⟩
  | cons n ns ih =>
    intro m0
    by_cases h : m0.created_at < n.created_at
    · obtain ⟨m, hfold, hmem, hle, hall⟩ := ih n
      refine ⟨m, ?_, ?_, ?_, ?_⟩
      · simpa [h] using hfold
      · rcases hmem with h1 | h1
        · exact Or.inr (by simp [h1])
        · exact Or.inr (by simp [h1])
      · exact le_trans (le_of_lt h) hle
      · intro x hx
        rcases List.mem_cons.1 hx with h1 | h1
        · rw [h1]; exact hle
        · exact hall x h1
    · obtain ⟨m, hfold, hmem, hle, hall⟩ := ih m0
      refine ⟨m, ?_, ?_, ?_, ?_⟩
      · simpa [h] using hfold
      · rcases hmem with h1 | h1
        · exact Or.inl h1
        · exact Or.inr (by simp [h1])
      · exact hle
      · intro x hx
        rcases List.mem_cons.1 hx with h1 | h1
        · rw [h1]
          exact le_trans (le_of_not_lt h) hle
        · exact hall x h1

/-- latestNote returns a stored note of maximal creation time whenever
the notes table is non-empty. -/
theorem latestNote_spec (ns : List NoteRow) (hne : ns ≠ []) :
    ∃ m, latestNote ns = some m ∧ m ∈ ns ∧ ∀ x ∈ ns, x.created_at ≤ m.created_at := by
  cases ns with
  | nil => exact absurd rfl hne
  | cons n ns =>
    obtain ⟨m, hfold, hmem, hle, hall⟩ := latestNote_foldl ns n
    refine ⟨m, ?_, ?_, ?_⟩
    · unfold latestNote
      simpa using hfold
    · rcases hmem with h1 | h1
      · simp [h1]
      · simp [h1]
    · intro x hx
      rcases List.mem_cons.1 hx with h1 | h1
      · rw [h1]; exact hle
      · exact hall x h1

/-- Option-valued mapM, characterized on success: same length, and every
output element is the image of some input element. -/
theorem mapM_option_spec {α β : Type} (f : α → Option β) :
    ∀ (l : List α) (res : List β), l.mapM f = some res →
      res.length = l.length ∧ ∀ b ∈ res, ∃ a ∈ l, f a = some b := by
  intro l
  induction l with
  | nil =>
    intro res h
    simp only [List.mapM_nil, pure, Option.some.injEq] at h
    subst h
    simp
  | cons x xs ih =>
    intro res h
    simp only [List.mapM_cons] at h
    cases hx : f x with
    | none => rw [hx] at h; simp at h
    | some y =>
      rw [hx] at h
      cases hxs : xs.mapM f with
      | none => rw [hxs] at h; simp at h
      | some ys =>
        rw [hxs] at h
        have h2 : y :: ys = res := by
          simpa using h
        obtain ⟨hlen, hall⟩ := ih ys hxs
        subst h2
        constructor
        · simp [hlen]
        · intro b hb
          rcases List.mem_cons.1 hb with h1 | h1
          · exact ⟨x, List.mem_cons_self x xs, by rw [hx, h1]⟩
          · obtain ⟨a, ha, hfa⟩ := hall b h1
            exact ⟨a, List.mem_cons_of_mem x ha, hfa⟩


/-- C6: queryByKnowledge resolves the note scope (explicit note id first,
else the most recently created note under the latest scope, else
unscoped), returns at most limit rows, and every returned row passes the
resolved note filter, the tag filter when tags are given, and the type
filter when the requested type is recognized; the order is whatever the
shuffle produced, constrained only to permute the filtered rows. -/
theorem C6_query_by_knowledge (shuffle : List QuestionRow → List QuestionRow)
    (hs : ∀ l, List.Perm (shuffle l) l)
    (db : DB) (tags : List Str) (limit : Nat)
    (note_id : Option Nat) (scope : Option Str) (q_type : Option Str)
    (res : List QuestionDict)
    (h : get_questions_by_knowledge shuffle db tags limit note_id scope q_type = some res) :
    res.length ≤ limit
    ∧ (∀ nid, note_id = some nid → resolveScope db note_id scope = some nid)
    ∧ (note_id = none → scope = some ("latest".data) → db.notes ≠ [] →
        ∃ m, latestNote db.notes = some m ∧ m ∈ db.notes
          ∧ (∀ x ∈ db.notes, x.created_at ≤ m.created_at)
          ∧ resolveScope db note_id scope = some m.id)
    ∧ (note_id = none → scope ≠ some ("latest".data) → resolveScope db note_id scope = none)
    ∧ (∀ d ∈ res, ∃ row ∈ db.questions,
        row_to_question_dict row = some d
        ∧ (∀ nid, resolveScope db note_id scope = some nid → row.note_id = nid)
        ∧ (tags ≠ [] → row.knowledge_tag ∈ tags)
        ∧ (∀ t, q_type = some t →
            (t = ("single_choice".data) ∨ t = ("short_answer".data)) → row.q_type = t)) := by
  simp only [get_questions_by_knowledge] at h
  obtain ⟨hlen, hall⟩ := mapM_option_spec row_to_question_dict _ res h
  refine ⟨?_, ?_, ?_, ?_, ?_⟩
  · rw [hlen, List.length_take]
    exact min_le_left _ _
  · intro nid hnid
    subst hnid
    rfl
  · intro hnone hlatest hne
    obtain ⟨m, hm, hmem, hmax⟩ := latestNote_spec db.notes hne
    refine ⟨m, hm, hmem, hmax, ?_⟩
    subst hnone
    simp only [resolveScope]
    rw [if_pos hlatest, hm]
    rfl
  · intro hnone hnl
    subst hnone
    simp only [resolveScope]
    rw [if_neg hnl]
  · intro d hd
    obtain ⟨row, hrowmem, hrow⟩ := hall d hd
    have hrow2 : row ∈ db.questions.filter
        (rowMatches (resolveScope db note_id scope) tags q_type) :=
      ((hs _).mem_iff).1 (List.take_subset _ _ hrowmem)
    rw [List.mem_filter] at hrow2
    obtain ⟨hrowq, hmat⟩ := hrow2
    simp only [rowMatches, Bool.and_eq_true] at hmat
    obtain ⟨⟨m1, m2⟩, m3⟩ := hmat
    refine ⟨row, hrowq, hrow, ?_, ?_, ?_⟩
    · intro nid hnid
      rw [hnid] at m1
      have m1b : (row.note_id == nid) = true := m1
      exact eq_of_beq m1b
    · intro htags
      have hne : tags.isEmpty = false := by
        cases tags with
        | nil => exact absurd rfl htags
        | cons t ts => rfl
      rw [hne] at m2
      simp only [Bool.false_eq_true, if_false] at m2
      exact List.elem_iff.1 m2
    · intro t hqt hrec
      rw [hqt] at m3
      have m3b : (if t = ("single_choice".data) ∨ t = ("short_answer".data)
          then row.q_type == t else true) = true := m3
      rw [if_pos hrec] at m3b
      exact eq_of_beq m3b

/-- Evaluation of the scoring tail on a payload holding only a numeric
score: the comment defaults, the score runs through the scale division
and the clamp. -/
theorem scoreOfPayload_single (q : ℚ) :
    scoreOfPayload (Json.obj [(("score".data), Json.num q)]) =
      some (max 0 (min 1 (if q > 1 then q / 100 else q)), msgNoComment) := rfl

/-- Every successful scoring-tail result lies in the unit interval. -/
theorem scoreOfPayload_bounds (js : Json) (r : ℚ × Str)
    (h : scoreOfPayload js = some r) : 0 ≤ r.1 ∧ r.1 ≤ 1 := by
  cases js with
  | obj o =>
    simp only [scoreOfPayload] at h
    cases hpf : pyFloat (jgetD o ("score".data) (Json.num 0)) with
    | none =>
      rw [hpf] at h
      simp at h
    | some q =>
      rw [hpf] at h
      simp only [Option.some.injEq] at h
      subst h
      exact ⟨le_max_left 0 _, max_le (by norm_num) (min_le_left 1 _)⟩
  | null => simp [scoreOfPayload] at h
  | bool b => simp [scoreOfPayload] at h
  | num q => simp [scoreOfPayload] at h
  | str s => simp [scoreOfPayload] at h
  | arr xs => simp [scoreOfPayload] at h

/-- Every score returned by score_answer lies in the unit interval. -/
theorem score_answer_bounds (api_key : Str) (resp : Option Json) :
    0 ≤ (score_answer api_key resp).1 ∧ (score_answer api_key resp).1 ≤ 1 := by
  unfold score_answer
  repeat' split
  all_goals first
    | exact ⟨le_refl 0, by norm_num⟩
    | exact scoreOfPayload_bounds _ _ (by assumption)

/-- C3: on a successfully decoded scoring payload the score field is read
with default zero, a value above one is divided by one hundred, the
result is clamped to the unit interval, and an empty or missing comment
is replaced by the fixed placeholder; consequently every returned score
lies in the unit interval. -/
theorem C3_score_normalization :
    (∀ api_key resp, 0 ≤ (score_answer api_key resp).1 ∧ (score_answer api_key resp).1 ≤ 1)
    ∧ (∀ js r, scoreOfPayload js = some r → 0 ≤ r.1 ∧ r.1 ≤ 1)
    ∧ (∀ o q r, jget o ("score".data) = some (Json.num q) →
        scoreOfPayload (Json.obj o) = some r →
        r.1 = max 0 (min 1 (if q > 1 then q / 100 else q)))
    ∧ (∀ o r, jget o ("score".data) = none → scoreOfPayload (Json.obj o) = some r →
        r.1 = 0)
    ∧ (∀ o r c, jget o ("comment".data) = some (Json.str c) → c ≠ [] →
        scoreOfPayload (Json.obj o) = some r → r.2 = c)
    ∧ (∀ o r, jget o ("comment".data) = none → scoreOfPayload (Json.obj o) = some r →
        r.2 = msgNoComment) := by
  refine ⟨score_answer_bounds, scoreOfPayload_bounds, ?_, ?_, ?_, ?_⟩
  · intro o q r h1 h2
    simp only [scoreOfPayload, jgetD, h1, Option.getD_some, pyFloat,
      Option.some.injEq] at h2
    rw [← h2]
  · intro o r h1 h2
    simp only [scoreOfPayload, jgetD, h1, Option.getD_none, pyFloat,
      Option.some.injEq] at h2
    rw [← h2]
    simp only
    rw [if_neg (by norm_num : ¬ ((0 : ℚ) > 1)), min_eq_right (by norm_num), max_self]
  · intro o r c h1 hne h2
    simp only [scoreOfPayload] at h2
    cases hpf : pyFloat (jgetD o ("score".data) (Json.num 0)) with
    | none =>
      rw [hpf] at h2
      simp at h2
    | some q =>
      rw [hpf] at h2
      simp only [Option.some.injEq] at h2
      rw [← h2]
      simp only [jgetD, h1, Option.getD_some, pyStr]
      rw [if_neg (by simpa using hne)]
  · intro o r h1 h2
    simp only [scoreOfPayload] at h2
    cases hpf : pyFloat (jgetD o ("score".data) (Json.num 0)) with
    | none =>
      rw [hpf] at h2
      simp at h2
    | some q =>
      rw [hpf] at h2
      simp only [Option.some.injEq] at h2
      rw [← h2]
      simp only [jgetD, h1, Option.getD_none, pyStr]
      rfl

/-- C4 counterexample: a raw score of 1.4 is greater than 1, so the code
divides it by 100 before clamping and returns 0.014, not the 1.0 the
claim asserts. -/
theorem C4_counterexample :
    scoreOfPayload (Json.obj [(("score".data), Json.num ((7 : ℚ)/5))]) =
      some ((7 : ℚ)/500, msgNoComment)
    ∧ ((7 : ℚ)/500) ≠ 1 := by
  constructor
  · rw [scoreOfPayload_single]
    have h1 : ((7 : ℚ)/5 > 1) := by norm_num
    rw [if_pos h1, show ((7 : ℚ)/5)/100 = 7/500 by norm_num,
      min_eq_right (by norm_num), max_eq_right (by norm_num)]
  · norm_num

/-- C4 amended: 85 normalizes to 0.85; 1.4 is likewise above 1 and is
divided by 100, giving 0.014, which the clamp leaves unchanged; -0.2
clamps to 0. -/
theorem C4_clamp_examples :
    scoreOfPayload (Json.obj [(("score".data), Json.num 85)]) =
      some ((17 : ℚ)/20, msgNoComment)
    ∧ scoreOfPayload (Json.obj [(("score".data), Json.num ((7 : ℚ)/5))]) =
      some ((7 : ℚ)/500, msgNoComment)
    ∧ scoreOfPayload (Json.obj [(("score".data), Json.num (-((1 : ℚ)/5)))]) =
      some (0, msgNoComment) := by
  refine ⟨?_, ?_, ?_⟩ <;> rw [scoreOfPayload_single]
  · have h1 : ((85 : ℚ) > 1) := by norm_num
    rw [if_pos h1, show (85 : ℚ)/100 = 17/20 by norm_num,
      min_eq_right (by norm_num), max_eq_right (by norm_num)]
  · have h1 : ((7 : ℚ)/5 > 1) := by norm_num
    rw [if_pos h1, show ((7 : ℚ)/5)/100 = 7/500 by norm_num,
      min_eq_right (by norm_num), max_eq_right (by norm_num)]
  · have h1 : ¬ ((-((1 : ℚ)/5)) > 1) := by norm_num
    rw [if_neg h1, min_eq_right (by norm_num), max_eq_left (by norm_num)]

/-- C5: both client calls are total functions of the credential and the
decoded response, and on every failure they return the documented
defaults: the generator returns the empty sequence on a missing
credential, on a failed remote call, and on a payload that does not
decode; the scorer returns a zero score with the fixed diagnostic in the
corresponding cases. -/
theorem C5_clients_fail_soft :
    (∀ resp, generate_questions_from_note [] resp = [])
    ∧ (∀ api_key, generate_questions_from_note api_key none = [])
    ∧ (∀ api_key data t, getOutputText data = some (some (Json.str t)) →
        loads (cleanFence (pyStrip t)) = none →
        generate_questions_from_note api_key (some data) = [])
    ∧ (∀ api_key data v js, getOutputText data = some (some v) → asStr v = some js →
        ∀ w, loads (cleanFence (pyStrip js)) = some w → (∀ xs, w ≠ Json.arr xs) →
        generate_questions_from_note api_key (some data) = [])
    ∧ (∀ resp, score_answer [] resp = (0, msgNoApiKey))
    ∧ (∀ api_key, api_key ≠ [] → score_answer api_key none = (0, msgScoreFail))
    ∧ (∀ api_key data t, api_key ≠ [] → getOutputText data = some (some (Json.str t)) →
        loads (cleanFence (pyStrip t)) = none →
        score_answer api_key (some data) = (0, msgScoreFail)) := by
  refine ⟨?_, ?_, ?_, ?_, ?_, ?_, ?_⟩
  · intro resp
    rfl
  · intro api_key
    unfold generate_questions_from_note
    split <;> rfl
  · intro api_key data t h1 h2
    unfold generate_questions_from_note
    split
    · rfl
    · simp only [h1, asStr, parseQuestionsText, h2]
  · intro api_key data v js h1 h2 w h3 h4
    unfold generate_questions_from_note
    split
    · rfl
    · cases w with
      | arr xs => exact absurd rfl (h4 xs)
      | null => simp only [h1, h2, parseQuestionsText, h3]
      | bool b => simp only [h1, h2, parseQuestionsText, h3]
      | num q => simp only [h1, h2, parseQuestionsText, h3]
      | str s => simp only [h1, h2, parseQuestionsText, h3]
      | obj fs => simp only [h1, h2, parseQuestionsText, h3]
  · intro resp
    rfl
  · intro api_key hne
    unfold score_answer
    split
    · rename_i hemp
      exact absurd (by simpa using hemp) hne
    · rfl
  · intro api_key data t hne h1 h2
    unfold score_answer
    split
    · rename_i hemp
      exact absurd (by simpa using hemp) hne
    · simp only [h1, asStr, h2]

/-- C8: the stats overview divides correct by total answers, returning
zero for an empty history instead of dividing; the weekly buckets group
the answer rows by the week key of their creation time, each reporting
its size, its number of correct flags and its own guarded accuracy, with
bucket keys ascending; three answers of which two are correct give
accuracy two thirds. -/
theorem C8_stats_overview (weekKey : Nat → Str) (db : DB) :
    (get_stats_overview weekKey db).total_answers = db.answers.length
    ∧ (get_stats_overview weekKey db).correct_answers =
        db.answers.countP (fun a => a.is_correct)
    ∧ (get_stats_overview weekKey db).accuracy =
        (if db.answers.length = 0 then 0
         else (db.answers.countP (fun a => a.is_correct) : ℚ) / (db.answers.length : ℚ))
    ∧ (db.answers = [] → (get_stats_overview weekKey db).accuracy = 0)
    ∧ (db.answers.length = 3 → db.answers.countP (fun a => a.is_correct) = 2 →
        (get_stats_overview weekKey db).accuracy = 2/3)
    ∧ List.Pairwise (fun b1 b2 : WeekBucket => b1.week ≤ b2.week)
        (get_stats_overview weekKey db).by_week
    ∧ (∀ b ∈ (get_stats_overview weekKey db).by_week,
        b.total = (db.answers.filter (fun a => weekKey a.created_at == b.week)).length
        ∧ b.correct = (db.answers.filter
            (fun a => weekKey a.created_at == b.week)).countP (fun a => a.is_correct)
        ∧ b.accuracy = (if b.total = 0 then 0 else (b.correct : ℚ) / (b.total : ℚ)))
    ∧ (∀ a ∈ db.answers, ∃ b ∈ (get_stats_overview weekKey db).by_week,
        b.week = weekKey a.created_at) := by
  refine ⟨rfl, rfl, rfl, ?_, ?_, ?_, ?_, ?_⟩
  · intro h
    simp [get_stats_overview, h]
  · intro h1 h2
    simp only [get_stats_overview, h1, h2]
    norm_num
  · simp only [get_stats_overview, get_stats_by_week]
    rw [List.pairwise_map]
    exact List.sorted_insertionSort (fun a b : Str => a ≤ b)
      ((db.answers.map (fun a => weekKey a.created_at)).dedup)
  · intro b hb
    simp only [get_stats_overview, get_stats_by_week] at hb
    obtain ⟨w, hw, rfl⟩ := List.mem_map.1 hb
    exact ⟨rfl, rfl, rfl⟩
  · intro a ha
    simp only [get_stats_overview, get_stats_by_week]
    refine ⟨_, List.mem_map_of_mem _ ?_, rfl⟩
    rw [List.mem_insertionSort, List.mem_dedup]
    exact List.mem_map_of_mem _ ha

/-- Content census of the rows one batch loop adds: a non-empty content
outside the snapshot that some draft carries appears exactly once, every
other content appears in no added row. -/
theorem insertLoop_countP (nid : Nat) (ds : List Draft) :
    ∀ (existing : List Str) (nextId : Nat) (c : Str),
      (insertLoop nid existing nextId ds).countP (fun q => q.content == c) =
        if c ≠ [] ∧ c ∉ existing ∧ ∃ d ∈ ds, d.content = c then 1 else 0 := by
  induction ds with
  | nil =>
    intro existing nextId c
    rw [if_neg]
    · rfl
    · rintro ⟨-, -, d, hd, -⟩
      exact (List.not_mem_nil d) hd
  | cons d ds ih =>
    intro existing nextId c
    by_cases hde : d.content = []
    · rw [show insertLoop nid existing nextId (d :: ds) = insertLoop nid existing nextId ds by
        simp [insertLoop, hde]]
      rw [ih]
      apply if_congr _ rfl rfl
      constructor
      · rintro ⟨h1, h2, d2, hd2, h3⟩
        exact ⟨h1, h2, d2, List.mem_cons_of_mem d hd2, h3⟩
      · rintro ⟨h1, h2, d2, hd2, h3⟩
        rcases List.mem_cons.1 hd2 with h4 | h4
        · subst h4
          rw [hde] at h3
          exact absurd h3.symm h1
        · exact ⟨h1, h2, d2, h4, h3⟩
    · by_cases hdm : d.content ∈ existing
      · rw [show insertLoop nid existing nextId (d :: ds) = insertLoop nid existing nextId ds by
          simp [insertLoop, hde, hdm]]
        rw [ih]
        apply if_congr _ rfl rfl
        constructor
        · rintro ⟨h1, h2, d2, hd2, h3⟩
          exact ⟨h1, h2, d2, List.mem_cons_of_mem d hd2, h3⟩
        · rintro ⟨h1, h2, d2, hd2, h3⟩
          rcases List.mem_cons.1 hd2 with h4 | h4
          · subst h4
            rw [h3] at hdm
            exact absurd hdm h2
          · exact ⟨h1, h2, d2, h4, h3⟩
      · rw [show insertLoop nid existing nextId (d :: ds) =
            mkQuestionRow nid nextId d :: insertLoop nid (d.content :: existing) (nextId + 1) ds by
          simp [insertLoop, hde, hdm]]
        rw [List.countP_cons, ih]
        by_cases hcd : d.content = c
        · have hpc : ((mkQuestionRow nid nextId d).content == c) = true := by
            simp [mkQuestionRow, hcd]
          rw [hpc, if_pos rfl]
          have hnot : ¬ (c ≠ [] ∧ c ∉ d.content :: existing ∧ ∃ d2 ∈ ds, d2.content = c) := by
            rintro ⟨h1, h2, -⟩
            exact h2 (by rw [← hcd]; exact List.mem_cons_self _ _)
          rw [if_neg hnot]
          have hyes : c ≠ [] ∧ c ∉ existing ∧ ∃ d2 ∈ d :: ds, d2.content = c :=
            ⟨by rw [← hcd]; exact hde, by rw [← hcd]; exact hdm,
              d, List.mem_cons_self d ds, hcd⟩
          rw [if_pos hyes]
        · have hpc : ((mkQuestionRow nid nextId d).content == c) = false := by
            simp [mkQuestionRow]
            exact hcd
          rw [hpc]
          rw [show (if (false = true) then 1 else 0) = 0 from rfl, Nat.add_zero]
          apply if_congr _ rfl rfl
          constructor
          · rintro ⟨h1, h2, d2, hd2, h3⟩
            refine ⟨h1, fun hmem => h2 (List.mem_cons_of_mem _ hmem),
              d2, List.mem_cons_of_mem d hd2, h3⟩
          · rintro ⟨h1, h2, d2, hd2, h3⟩
            rcases List.mem_cons.1 hd2 with h4 | h4
            · subst h4
              exact absurd h3 hcd
            · refine ⟨h1, ?_, d2, h4, h3⟩
              intro hmem
              rcases List.mem_cons.1 hmem with h5 | h5
              · exact hcd h5.symm
              · exact h2 h5

/-- Membership in the dedup snapshot characterized by the content census
of the stored rows. -/
theorem mem_existingContents (qs : List QuestionRow) (c : Str) :
    c ∈ existingContents qs ↔ c ≠ [] ∧ 0 < qs.countP (fun q => q.content == c) := by
  unfold existingContents
  rw [List.mem_filterMap, List.countP_pos_iff]
  constructor
  · rintro ⟨q, hq, hf⟩
    by_cases hqe : q.content = []
    · rw [if_pos hqe] at hf
      exact absurd hf (by simp)
    · rw [if_neg hqe] at hf
      have heq : q.content = c := by simpa using hf
      subst heq
      exact ⟨hqe, q, hq, by simp⟩
  · rintro ⟨hc, q, hq, hbeq⟩
    have heq : q.content = c := by simpa using hbeq
    refine ⟨q, hq, ?_⟩
    rw [if_neg (by rw [heq]; exact hc), heq]

/-- Effect of one insert_question_batch call on the content census. -/
theorem insert_batch_contentCount (db : DB) (nid : Nat) (drafts : List Draft) (c : Str) :
    contentCount (insert_question_batch db nid drafts) c =
      contentCount db c +
        (if c ≠ [] ∧ contentCount db c = 0 ∧ ∃ d ∈ drafts, d.content = c then 1 else 0) := by
  simp only [insert_question_batch, contentCount]
  rw [List.countP_append, insertLoop_countP]
  congr 1
  apply if_congr _ rfl rfl
  constructor
  · rintro ⟨h1, h2, h3⟩
    refine ⟨h1, ?_, h3⟩
    by_contra h4
    exact h2 ((mem_existingContents db.questions c).2 ⟨h1, Nat.pos_of_ne_zero h4⟩)
  · rintro ⟨h1, h2, h3⟩
    refine ⟨h1, ?_, h3⟩
    intro hmem
    have := ((mem_existingContents db.questions c).1 hmem).2
    omega

/-- Duplicate freedom of a list of strings through its census. -/
theorem nodup_iff_countP_le_one (l : List Str) :
    l.Nodup ↔ ∀ c : Str, l.countP (fun x => x == c) ≤ 1 := by
  induction l with
  | nil =>
    simp
  | cons a l ih =>
    rw [List.nodup_cons]
    constructor
    · rintro ⟨ha, hnd⟩ c
      rw [List.countP_cons]
      by_cases hac : a = c
      · have hz : l.countP (fun x => x == c) = 0 := by
          rw [List.countP_eq_zero]
          intro x hx
          subst hac
          simp only [beq_iff_eq]
          intro hxa
          subst hxa
          exact ha hx
        rw [hz]
        split <;> omega
      · have : ((a == c) = true) → False := by
          intro hb
          exact hac (by simpa using hb)
        rw [if_neg this, Nat.add_zero]
        exact ih.1 hnd c
    · intro h
      constructor
      · intro hmem
        have h2 := h a
        rw [List.countP_cons, if_pos (by simp)] at h2
        have h3 : 0 < l.countP (fun x => x == a) :=
          List.countP_pos_iff.2 ⟨a, hmem, by simp⟩
        omega
      · rw [ih]
        intro c
        have h2 := h c
        rw [List.countP_cons] at h2
        omega

/-- The dedup invariant restated through the content census. -/
theorem contentInv_iff (db : DB) :
    ContentInv db ↔ ∀ c : Str, c ≠ [] → contentCount db c ≤ 1 := by
  have key : ∀ c : Str,
      ((db.questions.map (fun q => q.content)).filter
          (fun x => !x.isEmpty)).countP (fun x => x == c) =
        if c = [] then 0 else contentCount db c := by
    intro c
    rw [List.countP_filter, List.countP_map]
    by_cases hc : c = []
    · rw [if_pos hc, hc, List.countP_eq_zero]
      intro q hq
      by_cases hqe : q.content = []
      · simp [hqe]
      · simp [hqe]
    · rw [if_neg hc]
      unfold contentCount
      apply List.countP_congr
      intro q hq
      simp only [Function.comp]
      by_cases hqc : q.content = c
      · subst hqc
        simp [List.isEmpty_iff, hc]
      · simp [hqc]
  unfold ContentInv
  rw [nodup_iff_countP_le_one]
  constructor
  · intro h c hc
    have h2 := h c
    rw [key c, if_neg hc] at h2
    exact h2
  · intro h c
    rw [key c]
    by_cases hc : c = []
    · rw [if_pos hc]
      omega
    · rw [if_neg hc]
      exact h c hc

/-- C1: across any sequence of insertBatch calls starting from a store
satisfying the dedup invariant, the invariant is preserved; a non-empty
content ends up stored exactly once when it was already stored or appears
in some batch, and zero times otherwise; and rows with empty content are
never added. -/
theorem C1_insert_batch_dedup (batches : List (Nat × List Draft)) (db : DB)
    (hinv : ContentInv db) :
    ContentInv (runBatches db batches)
    ∧ (∀ c : Str, c ≠ [] →
        contentCount (runBatches db batches) c =
          (if 0 < contentCount db c ∨ ∃ b ∈ batches, ∃ d ∈ b.2, d.content = c
           then 1 else 0))
    ∧ contentCount (runBatches db batches) [] = contentCount db [] := by
  induction batches generalizing db with
  | nil =>
    simp only [runBatches]
    refine ⟨hinv, ?_, trivial⟩
    intro c hc
    have hle := (contentInv_iff db).1 hinv c hc
    by_cases h0 : 0 < contentCount db c
    · rw [if_pos (Or.inl h0)]
      omega
    · rw [if_neg]
      · omega
      · rintro (h | ⟨b, hb, -⟩)
        · exact h0 h
        · exact (List.not_mem_nil b) hb
  | cons b rest ih =>
    have hcount := insert_batch_contentCount db b.1 b.2
    have hinv1 : ContentInv (insert_question_batch db b.1 b.2) := by
      rw [contentInv_iff]
      intro c hc
      have h1 := (contentInv_iff db).1 hinv c hc
      rw [hcount c]
      by_cases h2 : contentCount db c = 0
      · split <;> omega
      · rw [if_neg]
        · omega
        · rintro ⟨-, h3, -⟩
          exact h2 h3
    obtain ⟨ha, hb2, hc2⟩ := ih (insert_question_batch db b.1 b.2) hinv1
    refine ⟨ha, ?_, ?_⟩
    · intro c hc
      rw [show runBatches db (b :: rest) =
        runBatches (insert_question_batch db b.1 b.2) rest from rfl, hb2 c hc]
      apply if_congr _ rfl rfl
      rw [hcount c]
      by_cases hP : c ≠ [] ∧ contentCount db c = 0 ∧ ∃ d ∈ b.2, d.content = c
      · rw [if_pos hP]
        constructor
        · intro _
          exact Or.inr ⟨b, List.mem_cons_self b rest, hP.2.2⟩
        · intro _
          exact Or.inl (by omega)
      · rw [if_neg hP, Nat.add_zero]
        constructor
        · rintro (h | ⟨b2, hb2m, hd⟩)
          · exact Or.inl h
          · exact Or.inr ⟨b2, List.mem_cons_of_mem b hb2m, hd⟩
        · rintro (h | ⟨b2, hb2m, hd⟩)
          · exact Or.inl h
          · rcases List.mem_cons.1 hb2m with h4 | h4
            · subst h4
              by_cases h5 : contentCount db c = 0
              · exact absurd ⟨hc, h5, hd⟩ hP
              · exact Or.inl (Nat.pos_of_ne_zero h5)
            · exact Or.inr ⟨b2, h4, hd⟩
    · rw [show runBatches db (b :: rest) =
        runBatches (insert_question_batch db b.1 b.2) rest from rfl, hc2, hcount []]
      rw [if_neg]
      · omega
      · rintro ⟨h, -, -⟩
        exact h rfl


/-! Round-trip of the modelled encoder and decoder, used for the options
column and for the concrete response payloads of the parsing claims. -/

/-- Facts about the decimal printer: non-empty, all digits, and the digit
fold recovers the number. -/
theorem natDigitsAux_spec (fuel : Nat) :
    ∀ n : Nat, n < fuel →
      natDigitsAux fuel n ≠ []
      ∧ (∀ c ∈ natDigitsAux fuel n, c.isDigit = true)
      ∧ parseNatVal (natDigitsAux fuel n) = n := by
  induction fuel with
  | zero =>
    intro n h
    omega
  | succ fuel ih =>
    intro n h
    by_cases h10 : n < 10
    · rw [show natDigitsAux (fuel + 1) n = [Char.ofNat (48 + n)] by simp [natDigitsAux, h10]]
      refine ⟨by simp, ?_, ?_⟩
      · intro c hc
        rw [List.mem_singleton] at hc
        subst hc
        interval_cases n <;> decide
      · interval_cases n <;> decide
    · rw [show natDigitsAux (fuel + 1) n =
        natDigitsAux fuel (n / 10) ++ [Char.ofNat (48 + n % 10)] by simp [natDigitsAux, h10]]
      have hdiv : n / 10 < fuel := by
        have := Nat.div_lt_self (show 0 < n by omega) (show 1 < 10 by omega)
        omega
      obtain ⟨hne, hdig, hval⟩ := ih (n / 10) hdiv
      have hm : n % 10 < 10 := Nat.mod_lt n (by omega)
      refine ⟨by simp, ?_, ?_⟩
      · intro c hc
        rcases List.mem_append.1 hc with h1 | h1
        · exact hdig c h1
        · rw [List.mem_singleton] at h1
          subst h1
          generalize hgen : n % 10 = m at hm
          interval_cases m <;> decide
      · unfold parseNatVal
        rw [List.foldl_append]
        have hdc : (Char.ofNat (48 + n % 10)).toNat - 48 = n % 10 := by
          generalize hgen : n % 10 = m at hm
          interval_cases m <;> decide
        simp only [List.foldl]
        rw [show (natDigitsAux fuel (n / 10)).foldl
            (fun a c => a * 10 + (c.toNat - 48)) 0 = parseNatVal (natDigitsAux fuel (n / 10))
            from rfl, hval, hdc]
        omega

/-- The printer output of natDigits characterized. -/
theorem natDigits_spec (n : Nat) :
    natDigits n ≠ []
    ∧ (∀ c ∈ natDigits n, c.isDigit = true)
    ∧ parseNatVal (natDigits n) = n :=
  natDigitsAux_spec (n + 1) n (by omega)

/-- Continuations starting with anything but a digit. -/
def notDigitHead (rest : Str) : Prop :=
  match rest with
  | [] => True
  | c :: _ => c.isDigit = false

/-- Scanning digits stops exactly at a non-digit continuation. -/
theorem span_digits_append (ds rest : Str) (hds : ∀ c ∈ ds, c.isDigit = true)
    (hrest : notDigitHead rest) :
    (ds ++ rest).takeWhile Char.isDigit = ds
    ∧ (ds ++ rest).dropWhile Char.isDigit = rest := by
  induction ds with
  | nil =>
    simp only [List.nil_append]
    cases rest with
    | nil => simp
    | cons c t =>
      have hc : c.isDigit = false := hrest
      rw [List.takeWhile_cons, List.dropWhile_cons, hc]
      simp
  | cons d ds ih =>
    have hd : d.isDigit = true := hds d (List.mem_cons_self d ds)
    obtain ⟨h1, h2⟩ := ih (fun c hc => hds c (List.mem_cons_of_mem d hc))
    rw [List.cons_append, List.takeWhile_cons, List.dropWhile_cons, hd]
    simp [h1, h2]

/-- Continuations that can legally follow a serialized value. -/
def sepOkHead (rest : Str) : Prop :=
  match rest with
  | [] => True
  | c :: _ => c = ',' ∨ c = ']' ∨ c = '}'

/-- Unsigned number parsing recovers a printed natural before a legal
continuation. -/
theorem parseUNumBody_natDigits (n : Nat) (rest : Str) (hrest : sepOkHead rest) :
    parseUNumBody (natDigits n ++ rest) = some ((n : ℚ), rest) := by
  obtain ⟨hne, hdig, hval⟩ := natDigits_spec n
  have hsep : notDigitHead rest := by
    cases rest with
    | nil => trivial
    | cons c t =>
      have hrest2 : c = ',' ∨ c = ']' ∨ c = '}' := hrest
      show c.isDigit = false
      rcases hrest2 with h | h | h <;> subst h <;> decide
  obtain ⟨htake, hdrop⟩ := span_digits_append (natDigits n) rest hdig hsep
  unfold parseUNumBody
  simp only [htake, hdrop]
  rw [if_neg (by simpa using hne)]
  cases rest with
  | nil =>
    simp only
    unfold parseExpPart
    rw [hval]
  | cons c t =>
    have hrest2 : c = ',' ∨ c = ']' ∨ c = '}' := hrest
    rcases hrest2 with h | h | h <;> subst h <;>
      simp +decide [parseExpPart, hval]

/-- parseNum recovers a printed natural before a legal continuation. -/
theorem parseNum_natDigits (n : Nat) (rest : Str) (hrest : sepOkHead rest) :
    parseNum (natDigits n ++ rest) = some (Json.num ((n : ℚ)), rest) := by
  obtain ⟨hne, hdig, -⟩ := natDigits_spec n
  obtain ⟨c, t, hD⟩ : ∃ c t, natDigits n = c :: t := by
    cases hE : natDigits n with
    | nil => exact absurd hE hne
    | cons c t => exact ⟨c, t, rfl⟩
  have hcd : c.isDigit = true := hdig c (by rw [hD]; exact List.mem_cons_self c t)
  have hcm : ¬ (c = '-') := by
    intro h
    rw [h] at hcd
    exact absurd hcd (by decide)
  rw [hD, List.cons_append,
    show parseNum (c :: (t ++ rest)) =
      (parseUNumBody (c :: (t ++ rest))).map (fun p => (Json.num p.1, p.2)) by
      simp [parseNum, hcm],
    ← List.cons_append, ← hD, parseUNumBody_natDigits n rest hrest]
  rfl

/-- parseNum recovers every serialized integer rational before a legal
continuation. -/
theorem parseNum_dumps_num (q : ℚ) (hq : q.den = 1) (rest : Str) (hrest : sepOkHead rest) :
    parseNum (dumps (Json.num q) ++ rest) = some (Json.num q, rest) := by
  have hqq : ((q.num : ℚ)) = q := by
    have h1 := Rat.num_div_den q
    rw [hq] at h1
    simpa using h1
  rw [show dumps (Json.num q) =
      (if q.num < 0 then '-' :: natDigits q.num.natAbs else natDigits q.num.natAbs) from rfl]
  by_cases hneg : q.num < 0
  · rw [if_pos hneg, List.cons_append,
      show parseNum ('-' :: (natDigits q.num.natAbs ++ rest)) =
        (parseUNumBody (natDigits q.num.natAbs ++ rest)).map
          (fun p => (Json.num (-p.1), p.2)) by simp [parseNum],
      parseUNumBody_natDigits _ _ hrest]
    have h1 : ((q.num.natAbs : ℚ)) = -(q.num : ℚ) := by
      rw [Int.cast_natAbs, Int.cast_abs]
      exact abs_of_neg (by exact_mod_cast hneg)
    show some (Json.num (-((q.num.natAbs : ℚ))), rest) = some (Json.num q, rest)
    rw [h1, neg_neg, hqq]
  · rw [if_neg hneg, parseNum_natDigits _ _ hrest]
    have h1 : ((q.num.natAbs : ℚ)) = (q.num : ℚ) := by
      rw [Int.cast_natAbs, Int.cast_abs]
      exact abs_of_nonneg (by exact_mod_cast le_of_not_lt hneg)
    rw [h1, hqq]

/-- Single step lemmas for the string decoder on each escape form. -/
theorem psb_quote (r : Str) : parseStrBody ('"' :: r) = some ([], r) := by
  unfold parseStrBody
  simp

/-- Decoding a written escape yields the escaped character. -/
theorem psb_esc_quote (r : Str) : parseStrBody ('\\' :: '"' :: r) =
    (parseStrBody r).map (fun p => ('"' :: p.1, p.2)) := by
  simp +decide [parseStrBody]

/-- Decoding a backslash escape. -/
theorem psb_esc_backslash (r : Str) : parseStrBody ('\\' :: '\\' :: r) =
    (parseStrBody r).map (fun p => ('\\' :: p.1, p.2)) := by
  simp +decide [parseStrBody]

/-- Decoding a newline escape. -/
theorem psb_esc_nl (r : Str) : parseStrBody ('\\' :: 'n' :: r) =
    (parseStrBody r).map (fun p => ('\n' :: p.1, p.2)) := by
  simp +decide [parseStrBody]

/-- Decoding a tab escape. -/
theorem psb_esc_tab (r : Str) : parseStrBody ('\\' :: 't' :: r) =
    (parseStrBody r).map (fun p => ('\t' :: p.1, p.2)) := by
  simp +decide [parseStrBody]

/-- Decoding a carriage-return escape. -/
theorem psb_esc_cr (r : Str) : parseStrBody ('\\' :: 'r' :: r) =
    (parseStrBody r).map (fun p => ('\r' :: p.1, p.2)) := by
  simp +decide [parseStrBody]

/-- Decoding a backspace escape. -/
theorem psb_esc_bs (r : Str) : parseStrBody ('\\' :: 'b' :: r) =
    (parseStrBody r).map (fun p => (Char.ofNat 8 :: p.1, p.2)) := by
  simp +decide [parseStrBody]

/-- Decoding a form-feed escape. -/
theorem psb_esc_ff (r : Str) : parseStrBody ('\\' :: 'f' :: r) =
    (parseStrBody r).map (fun p => (Char.ofNat 12 :: p.1, p.2)) := by
  simp +decide [parseStrBody]

/-- Decoding a plain character above the control range. -/
theorem psb_plain (c : Char) (r : Str) (h1 : ¬ c = '"') (h2 : ¬ c = '\\')
    (h3 : ¬ c.toNat < 32) : parseStrBody (c :: r) =
    (parseStrBody r).map (fun p => (c :: p.1, p.2)) := by
  conv_lhs => unfold parseStrBody
  rw [if_neg h1, if_neg h2, if_neg h3]

/-- The escaper on the empty string writes the closing quote. -/
theorem escBody_nil : escBody [] = ['"'] := by
  simp [escBody]

/-- The escaper on a quote character. -/
theorem escBody_quote (s : Str) : escBody ('"' :: s) = '\\' :: '"' :: escBody s := by
  conv_lhs => unfold escBody
  simp

/-- The escaper on a backslash. -/
theorem escBody_backslash (s : Str) : escBody ('\\' :: s) = '\\' :: '\\' :: escBody s := by
  conv_lhs => unfold escBody
  simp +decide

/-- The escaper on a newline. -/
theorem escBody_nl (s : Str) : escBody ('\n' :: s) = '\\' :: 'n' :: escBody s := by
  conv_lhs => unfold escBody
  simp +decide

/-- The escaper on a tab. -/
theorem escBody_tab (s : Str) : escBody ('\t' :: s) = '\\' :: 't' :: escBody s := by
  conv_lhs => unfold escBody
  simp +decide

/-- The escaper on a carriage return. -/
theorem escBody_cr (s : Str) : escBody ('\r' :: s) = '\\' :: 'r' :: escBody s := by
  conv_lhs => unfold escBody
  simp +decide

/-- The escaper on a backspace. -/
theorem escBody_bs (s : Str) : escBody (Char.ofNat 8 :: s) = '\\' :: 'b' :: escBody s := by
  conv_lhs => unfold escBody
  simp +decide

/-- The escaper on a form feed. -/
theorem escBody_ff (s : Str) : escBody (Char.ofNat 12 :: s) = '\\' :: 'f' :: escBody s := by
  conv_lhs => unfold escBody
  simp +decide

/-- The escaper on any other character writes it unchanged. -/
theorem escBody_plain (c : Char) (s : Str) (h1 : ¬ c = '"') (h2 : ¬ c = '\\')
    (h3 : ¬ c = '\n') (h4 : ¬ c = '\t') (h5 : ¬ c = '\r')
    (h6 : ¬ c = Char.ofNat 8) (h7 : ¬ c = Char.ofNat 12) :
    escBody (c :: s) = c :: escBody s := by
  conv_lhs => unfold escBody
  simp [h1, h2, h3, h4, h5, h6, h7]

/-- String-literal decoding inverts the escaper on representable
characters. -/
theorem parseStrBody_escBody (s : Str) (hs : s.all okChar = true) (rest : Str) :
    parseStrBody (escBody s ++ rest) = some (s, rest) := by
  induction s with
  | nil =>
    rw [escBody_nil, List.cons_append, List.nil_append, psb_quote]
  | cons c s ih =>
    have hc : okChar c = true := by
      rw [List.all_cons, Bool.and_eq_true] at hs
      exact hs.1
    have hrec := ih (by rw [List.all_cons, Bool.and_eq_true] at hs; exact hs.2)
    by_cases h1 : c = '"'
    · subst h1
      rw [escBody_quote, List.cons_append, List.cons_append, psb_esc_quote, hrec]
      rfl
    · by_cases h2 : c = '\\'
      · subst h2
        rw [escBody_backslash, List.cons_append, List.cons_append, psb_esc_backslash, hrec]
        rfl
      · by_cases h3 : c = '\n'
        · subst h3
          rw [escBody_nl, List.cons_append, List.cons_append, psb_esc_nl, hrec]
          rfl
        · by_cases h4 : c = '\t'
          · subst h4
            rw [escBody_tab, List.cons_append, List.cons_append, psb_esc_tab, hrec]
            rfl
          · by_cases h5 : c = '\r'
            · subst h5
              rw [escBody_cr, List.cons_append, List.cons_append, psb_esc_cr, hrec]
              rfl
            · by_cases h6 : c = Char.ofNat 8
              · subst h6
                rw [escBody_bs, List.cons_append, List.cons_append, psb_esc_bs, hrec]
                rfl
              · by_cases h7 : c = Char.ofNat 12
                · subst h7
                  rw [escBody_ff, List.cons_append, List.cons_append, psb_esc_ff, hrec]
                  rfl
                · have h32 : 32 ≤ c.toNat := by
                    unfold okChar at hc
                    simp only [h3, h4, h5, h6, h7] at hc
                    simpa using hc
                  rw [escBody_plain c s h1 h2 h3 h4 h5 h6 h7, List.cons_append,
                    psb_plain c _ h1 h2 (by omega), hrec]
                  rfl

mutual
/-- Fuel needed by the decoder on a serialized value. -/
def jdepth : Json → Nat
  | Json.arr (x :: xs) => 1 + jdepthElems x xs
  | Json.obj (f :: fs) => 1 + jdepthFields f fs
  | _ => 1
termination_by v => sizeOf v
decreasing_by
  all_goals simp_wf

/-- Fuel needed by the element loop on a serialized non-empty array. -/
def jdepthElems : Json → List Json → Nat
  | x, [] => 1 + jdepth x
  | x, y :: ys => 1 + max (jdepth x) (jdepthElems y ys)
termination_by x xs => 1 + sizeOf x + sizeOf xs
decreasing_by
  all_goals simp_wf
  all_goals omega

/-- Fuel needed by the field loop on a serialized non-empty object. -/
def jdepthFields : Str × Json → List (Str × Json) → Nat
  | (_, v), [] => 1 + jdepth v
  | (_, v), kv2 :: fs => 1 + max (jdepth v) (jdepthFields kv2 fs)
termination_by kv fs => 1 + sizeOf kv + sizeOf fs
decreasing_by
  all_goals simp_wf
  all_goals omega
end

/-- Unfolding equations of the depth measure. -/
theorem jdepth_arr_cons (x : Json) (xs : List Json) :
    jdepth (Json.arr (x :: xs)) = 1 + jdepthElems x xs := by
  simp [jdepth]

/-- Depth of a non-empty object. -/
theorem jdepth_obj_cons (kv : Str × Json) (fs : List (Str × Json)) :
    jdepth (Json.obj (kv :: fs)) = 1 + jdepthFields kv fs := by
  simp [jdepth]

/-- Element depth of a singleton tail. -/
theorem jdepthElems_nil (x : Json) : jdepthElems x [] = 1 + jdepth x := by
  simp [jdepthElems]

/-- Element depth of a longer tail. -/
theorem jdepthElems_cons (x y : Json) (ys : List Json) :
    jdepthElems x (y :: ys) = 1 + max (jdepth x) (jdepthElems y ys) := by
  simp [jdepthElems]

/-- Field depth of a singleton tail. -/
theorem jdepthFields_nil (kv : Str × Json) : jdepthFields kv [] = 1 + jdepth kv.2 := by
  obtain ⟨k, v⟩ := kv
  simp [jdepthFields]

/-- Field depth of a longer tail. -/
theorem jdepthFields_cons (kv kv2 : Str × Json) (fs : List (Str × Json)) :
    jdepthFields kv (kv2 :: fs) = 1 + max (jdepth kv.2) (jdepthFields kv2 fs) := by
  obtain ⟨k, v⟩ := kv
  simp [jdepthFields]

/-- The depth measure is positive. -/
theorem jdepth_pos (v : Json) : 1 ≤ jdepth v := by
  cases v with
  | arr xs =>
    cases xs with
    | nil => simp [jdepth]
    | cons x xs => rw [jdepth_arr_cons]; omega
  | obj fs =>
    cases fs with
    | nil => simp [jdepth]
    | cons kv fs => rw [jdepth_obj_cons]; omega
  | null => simp [jdepth]
  | bool b => simp [jdepth]
  | num q => simp [jdepth]
  | str s => simp [jdepth]

/-- The element depth is positive. -/
theorem jdepthElems_pos (x : Json) (xs : List Json) : 1 ≤ jdepthElems x xs := by
  cases xs with
  | nil => rw [jdepthElems_nil]; omega
  | cons y ys => rw [jdepthElems_cons]; omega

/-- The field depth is positive. -/
theorem jdepthFields_pos (kv : Str × Json) (fs : List (Str × Json)) :
    1 ≤ jdepthFields kv fs := by
  cases fs with
  | nil => rw [jdepthFields_nil]; omega
  | cons kv2 fs => rw [jdepthFields_cons]; omega

/-- Skipping whitespace stops at a non-whitespace head. -/
theorem skipWs_cons_not (c : Char) (t : Str) (h : isJWs c = false) :
    skipWs (c :: t) = c :: t := by
  unfold skipWs
  rw [List.dropWhile_cons, h]
  simp

/-- Skipping whitespace eats a space. -/
theorem skipWs_cons_space (s : Str) : skipWs (' ' :: s) = skipWs s := by
  unfold skipWs
  rw [List.dropWhile_cons]
  simp +decide

/-- A leading space does not change a parse. -/
theorem parseVal_cons_space (f : Nat) (s : Str) : parseVal f (' ' :: s) = parseVal f s := by
  cases f with
  | zero => rfl
  | succ f =>
    conv_lhs => unfold parseVal
    conv_rhs => unfold parseVal
    rw [skipWs_cons_space]

/-- A leading space does not change an element parse. -/
theorem parseElems_cons_space (f : Nat) (s : Str) :
    parseElems f (' ' :: s) = parseElems f s := by
  cases f with
  | zero => rfl
  | succ f =>
    conv_lhs => unfold parseElems
    conv_rhs => unfold parseElems
    rw [parseVal_cons_space]

/-- A leading space does not change a field parse. -/
theorem parseFields_cons_space (f : Nat) (s : Str) :
    parseFields f (' ' :: s) = parseFields f s := by
  cases f with
  | zero => rfl
  | succ f =>
    conv_lhs => unfold parseFields
    conv_rhs => unfold parseFields
    rw [skipWs_cons_space]

/-- Decoder dispatch on the four-letter literal null. -/
theorem parseVal_null (f : Nat) (rest : Str) :
    parseVal (f + 1) ('n' :: 'u' :: 'l' :: 'l' :: rest) = some (Json.null, rest) := by
  conv_lhs => unfold parseVal
  rw [skipWs_cons_not _ _ (by decide)]
  simp +decide

/-- Decoder dispatch on the literal true. -/
theorem parseVal_true (f : Nat) (rest : Str) :
    parseVal (f + 1) ('t' :: 'r' :: 'u' :: 'e' :: rest) = some (Json.bool true, rest) := by
  conv_lhs => unfold parseVal
  rw [skipWs_cons_not _ _ (by decide)]
  simp +decide

/-- Decoder dispatch on the literal false. -/
theorem parseVal_false (f : Nat) (rest : Str) :
    parseVal (f + 1) ('f' :: 'a' :: 'l' :: 's' :: 'e' :: rest) =
      some (Json.bool false, rest) := by
  conv_lhs => unfold parseVal
  rw [skipWs_cons_not _ _ (by decide)]
  simp +decide

/-- Decoder dispatch on a string literal. -/
theorem parseVal_str (f : Nat) (t : Str) :
    parseVal (f + 1) ('"' :: t) = (parseStrBody t).map (fun p => (Json.str p.1, p.2)) := by
  conv_lhs => unfold parseVal
  rw [skipWs_cons_not _ _ (by decide)]
  simp +decide

/-- Decoder dispatch on the empty array. -/
theorem parseVal_arr_nil (f : Nat) (rest : Str) :
    parseVal (f + 1) ('[' :: ']' :: rest) = some (Json.arr [], rest) := by
  conv_lhs => unfold parseVal
  rw [skipWs_cons_not _ _ (by decide)]
  simp +decide
  rw [skipWs_cons_not _ _ (by decide)]
  simp +decide

/-- Decoder dispatch on the empty object. -/
theorem parseVal_obj_nil (f : Nat) (rest : Str) :
    parseVal (f + 1) ('{' :: '}' :: rest) = some (Json.obj [], rest) := by
  conv_lhs => unfold parseVal
  rw [skipWs_cons_not _ _ (by decide)]
  simp +decide
  rw [skipWs_cons_not _ _ (by decide)]
  simp +decide

/-- Decoder dispatch to number parsing for any other head. -/
theorem parseVal_to_parseNum (f : Nat) (c : Char) (t : Str)
    (hws : isJWs c = false) (h1 : ¬ c = '"') (h2 : ¬ c = '[') (h3 : ¬ c = '{')
    (h4 : ¬ c = 't') (h5 : ¬ c = 'f') (h6 : ¬ c = 'n') :
    parseVal (f + 1) (c :: t) = parseNum (c :: t) := by
  conv_lhs => unfold parseVal
  rw [skipWs_cons_not c t hws]
  simp [h1, h2, h3, h4, h5, h6]

/-- Decoder dispatch on a non-empty array literal. -/
theorem parseVal_arr_cons (f : Nat) (c : Char) (t : Str)
    (hws : isJWs c = false) (hne : ¬ c = ']') :
    parseVal (f + 1) ('[' :: c :: t) =
      (parseElems f (c :: t)).map (fun p => (Json.arr p.1, p.2)) := by
  conv_lhs => unfold parseVal
  rw [skipWs_cons_not _ _ (by decide)]
  simp +decide
  rw [skipWs_cons_not c t hws]
  split
  · rename_i heq
    injection heq with hc ht
    exact absurd hc hne
  · rfl

/-- Decoder dispatch on a non-empty object literal. -/
theorem parseVal_obj_cons (f : Nat) (c : Char) (t : Str)
    (hws : isJWs c = false) (hne : ¬ c = '}') :
    parseVal (f + 1) ('{' :: c :: t) =
      (parseFields f (c :: t)).map (fun p => (Json.obj p.1, p.2)) := by
  conv_lhs => unfold parseVal
  rw [skipWs_cons_not _ _ (by decide)]
  simp +decide
  rw [skipWs_cons_not c t hws]
  split
  · rename_i heq
    injection heq with hc ht
    exact absurd hc hne
  · rfl

/-- A digit differs from every non-digit character. -/
theorem ne_of_isDigit (c d : Char) (h : c.isDigit = true) (hd : d.isDigit = false) :
    ¬ c = d := by
  intro e
  rw [e, hd] at h
  exact Bool.noConfusion h

/-- Digits are not JSON whitespace. -/
theorem isJWs_of_isDigit (c : Char) (h : c.isDigit = true) : isJWs c = false := by
  by_cases e1 : c = ' '
  · rw [e1] at h
    exact absurd h (by decide)
  · by_cases e2 : c = '\t'
    · rw [e2] at h
      exact absurd h (by decide)
    · by_cases e3 : c = '\n'
      · rw [e3] at h
        exact absurd h (by decide)
      · by_cases e4 : c = '\r'
        · rw [e4] at h
          exact absurd h (by decide)
        · simp [isJWs, e1, e2, e3, e4]

/-- Unfolding equations of the serializer. -/
theorem dumps_num_def (q : ℚ) :
    dumps (Json.num q) =
      (if q.num < 0 then '-' :: natDigits q.num.natAbs else natDigits q.num.natAbs) := by
  simp [dumps]

/-- Serializer on a string value. -/
theorem dumps_str_def (s : Str) : dumps (Json.str s) = '"' :: escBody s := by
  simp [dumps]

/-- Serializer on a non-empty array. -/
theorem dumps_arr_cons (x : Json) (xs : List Json) :
    dumps (Json.arr (x :: xs)) = '[' :: (dumps x ++ dumpsTail xs) ++ [']'] := by
  simp [dumps]

/-- Serializer on a non-empty object. -/
theorem dumps_obj_cons (kv : Str × Json) (fs : List (Str × Json)) :
    dumps (Json.obj (kv :: fs)) = '{' :: (dumpsField kv ++ dumpsFieldsTail fs) ++ ['}'] := by
  simp [dumps]

/-- Serializer on an object field. -/
theorem dumpsField_def (kv : Str × Json) :
    dumpsField kv = ('"' :: escBody kv.1) ++ (':' :: ' ' :: dumps kv.2) := by
  obtain ⟨k, v⟩ := kv
  simp [dumpsField]

/-- Serializer tail on a further array element. -/
theorem dumpsTail_cons (x : Json) (xs : List Json) :
    dumpsTail (x :: xs) = ',' :: ' ' :: (dumps x ++ dumpsTail xs) := by
  simp [dumpsTail]

/-- Serializer tail on a further object field. -/
theorem dumpsFieldsTail_cons (kv : Str × Json) (fs : List (Str × Json)) :
    dumpsFieldsTail (kv :: fs) = ',' :: ' ' :: (dumpsField kv ++ dumpsFieldsTail fs) := by
  simp [dumpsFieldsTail]

/-- The serializer output of every value starts with a character that is
not whitespace and not a closing delimiter. -/
theorem dumps_head (v : Json) :
    ∃ c t, dumps v = c :: t ∧ isJWs c = false ∧ ¬ c = ']' ∧ ¬ c = '}' := by
  cases v with
  | null => exact ⟨'n', ['u', 'l', 'l'], by decide, by decide, by decide, by decide⟩
  | bool b =>
    cases b with
    | true => exact ⟨'t', ['r', 'u', 'e'], by decide, by decide, by decide, by decide⟩
    | false => exact ⟨'f', ['a', 'l', 's', 'e'], by decide, by decide, by decide, by decide⟩
  | str s => exact ⟨'"', escBody s, dumps_str_def s, by decide, by decide, by decide⟩
  | arr xs =>
    cases xs with
    | nil => exact ⟨'[', [']'], by decide, by decide, by decide, by decide⟩
    | cons x xs =>
      exact ⟨'[', (dumps x ++ dumpsTail xs) ++ [']'], dumps_arr_cons x xs,
        by decide, by decide, by decide⟩
  | obj fs =>
    cases fs with
    | nil => exact ⟨'{', ['}'], by decide, by decide, by decide, by decide⟩
    | cons kv fs =>
      exact ⟨'{', (dumpsField kv ++ dumpsFieldsTail fs) ++ ['}'], dumps_obj_cons kv fs,
        by decide, by decide, by decide⟩
  | num q =>
    obtain ⟨hne, hdig, -⟩ := natDigits_spec q.num.natAbs
    obtain ⟨c, t, hD⟩ : ∃ c t, natDigits q.num.natAbs = c :: t := by
      cases hE : natDigits q.num.natAbs with
      | nil => exact absurd hE hne
      | cons c t => exact ⟨c, t, rfl⟩
    have hcd : c.isDigit = true := hdig c (by rw [hD]; exact List.mem_cons_self c t)
    by_cases hneg : q.num < 0
    · refine ⟨'-', natDigits q.num.natAbs, ?_, by decide, by decide, by decide⟩
      rw [dumps_num_def, if_pos hneg]
    · refine ⟨c, t, ?_, isJWs_of_isDigit c hcd,
        ne_of_isDigit c ']' hcd (by decide), ne_of_isDigit c '}' hcd (by decide)⟩
      rw [dumps_num_def, if_neg hneg, hD]

mutual
/-- The decoder inverts the serializer on every representable value,
given fuel at least the depth and a legal continuation. -/
theorem parseVal_dumps (v : Json) (hser : serOk v = true) (fuel : Nat) (rest : Str)
    (hfuel : jdepth v ≤ fuel) (hrest : sepOkHead rest) :
    parseVal fuel (dumps v ++ rest) = some (v, rest) := by
  obtain ⟨f, rfl⟩ : ∃ f, fuel = f + 1 :=
    ⟨fuel - 1, by have := jdepth_pos v; omega⟩
  cases v with
  | null =>
    rw [show dumps Json.null = ['n', 'u', 'l', 'l'] from by decide]
    exact parseVal_null f rest
  | bool b =>
    cases b with
    | true =>
      rw [show dumps (Json.bool true) = ['t', 'r', 'u', 'e'] from by decide]
      exact parseVal_true f rest
    | false =>
      rw [show dumps (Json.bool false) = ['f', 'a', 'l', 's', 'e'] from by decide]
      exact parseVal_false f rest
  | num q =>
    have hq : q.den = 1 := by simpa [serOk] using hser
    have hthis := parseNum_dumps_num q hq rest hrest
    rw [dumps_num_def] at hthis ⊢
    by_cases hneg : q.num < 0
    · rw [if_pos hneg] at hthis ⊢
      rw [List.cons_append] at hthis ⊢
      rw [parseVal_to_parseNum f '-' _ (by decide) (by decide) (by decide) (by decide)
        (by decide) (by decide) (by decide)]
      exact hthis
    · rw [if_neg hneg] at hthis ⊢
      obtain ⟨hne, hdig, -⟩ := natDigits_spec q.num.natAbs
      obtain ⟨c, t, hD⟩ : ∃ c t, natDigits q.num.natAbs = c :: t := by
        cases hE : natDigits q.num.natAbs with
        | nil => exact absurd hE hne
        | cons c t => exact ⟨c, t, rfl⟩
      have hcd : c.isDigit = true := hdig c (by rw [hD]; exact List.mem_cons_self c t)
      rw [hD, List.cons_append] at hthis ⊢
      rw [parseVal_to_parseNum f c _ (isJWs_of_isDigit c hcd)
        (ne_of_isDigit c '"' hcd (by decide)) (ne_of_isDigit c '[' hcd (by decide))
        (ne_of_isDigit c '{' hcd (by decide)) (ne_of_isDigit c 't' hcd (by decide))
        (ne_of_isDigit c 'f' hcd (by decide)) (ne_of_isDigit c 'n' hcd (by decide))]
      exact hthis
  | str s =>
    rw [dumps_str_def, List.cons_append, parseVal_str,
      parseStrBody_escBody s (by simpa [serOk] using hser) rest]
    rfl
  | arr xs =>
    cases xs with
    | nil =>
      rw [show dumps (Json.arr []) = ['[', ']'] from by decide]
      exact parseVal_arr_nil f rest
    | cons x xs =>
      rw [dumps_arr_cons]
      have hserl : serOkList (x :: xs) = true := by simpa [serOk] using hser
      have hdep : jdepthElems x xs ≤ f := by
        rw [jdepth_arr_cons] at hfuel
        omega
      obtain ⟨c, t, hD, hws, hne1, -⟩ := dumps_head x
      have hshape : (('[' :: (dumps x ++ dumpsTail xs) ++ [']']) ++ rest) =
          '[' :: (dumps x ++ (dumpsTail xs ++ (']' :: rest))) := by
        simp [List.append_assoc]
      rw [hshape, hD, List.cons_append, parseVal_arr_cons f c _ hws hne1,
        ← List.cons_append, ← hD, parseElems_dumps x xs hserl f rest hdep]
      rfl
  | obj fs =>
    cases fs with
    | nil =>
      rw [show dumps (Json.obj []) = ['{', '}'] from by decide]
      exact parseVal_obj_nil f rest
    | cons kv fs =>
      obtain ⟨k, v⟩ := kv
      rw [dumps_obj_cons]
      have hserf : serOkFields ((k, v) :: fs) = true := by simpa [serOk] using hser
      have hdep : jdepthFields (k, v) fs ≤ f := by
        rw [jdepth_obj_cons] at hfuel
        omega
      have hshape : (('{' :: (dumpsField (k, v) ++ dumpsFieldsTail fs) ++ ['}']) ++ rest) =
          '{' :: (dumpsField (k, v) ++ (dumpsFieldsTail fs ++ ('}' :: rest))) := by
        simp [List.append_assoc]
      rw [hshape, dumpsField_def, List.append_assoc, List.cons_append,
        parseVal_obj_cons f '"' _ (by decide) (by decide),
        ← List.cons_append, ← List.append_assoc, ← dumpsField_def,
        parseFields_dumps k v fs hserf f rest hdep]
      rfl
termination_by fuel
decreasing_by all_goals simp_wf; all_goals omega

/-- The element loop inverts the serializer on a non-empty element list. -/
theorem parseElems_dumps (x : Json) (xs : List Json) (hser : serOkList (x :: xs) = true)
    (fuel : Nat) (rest : Str) (hfuel : jdepthElems x xs ≤ fuel) :
    parseElems fuel (dumps x ++ (dumpsTail xs ++ (']' :: rest))) = some (x :: xs, rest) := by
  obtain ⟨f, rfl⟩ : ∃ f, fuel = f + 1 :=
    ⟨fuel - 1, by have := jdepthElems_pos x xs; omega⟩
  have hsplit : serOk x = true ∧ serOkList xs = true := by
    simp only [serOkList, Bool.and_eq_true] at hser
    exact hser
  conv_lhs => unfold parseElems
  cases xs with
  | nil =>
    rw [show dumpsTail ([] : List Json) = [] from by decide, List.nil_append]
    rw [parseVal_dumps x hsplit.1 f (']' :: rest)
      (by rw [jdepthElems_nil] at hfuel; omega) (by exact Or.inr (Or.inl rfl))]
    have hsw : skipWs (']' :: rest) = ']' :: rest := skipWs_cons_not _ _ (by decide)
    simp +decide [hsw]
  | cons y ys =>
    have hsys : serOkList (y :: ys) = true := hsplit.2
    have hfx : jdepth x ≤ f := by
      rw [jdepthElems_cons] at hfuel
      have := le_max_left (jdepth x) (jdepthElems y ys)
      omega
    have hfy : jdepthElems y ys ≤ f := by
      rw [jdepthElems_cons] at hfuel
      have := le_max_right (jdepth x) (jdepthElems y ys)
      omega
    rw [dumpsTail_cons]
    have hshape : (dumps x ++ ((',' :: ' ' :: (dumps y ++ dumpsTail ys)) ++ (']' :: rest))) =
        dumps x ++ (',' :: ' ' :: (dumps y ++ (dumpsTail ys ++ (']' :: rest)))) := by
      simp [List.append_assoc]
    rw [hshape, parseVal_dumps x hsplit.1 f _ hfx (by exact Or.inl rfl)]
    simp +decide only [show ∀ s : Str, skipWs (',' :: s) = ',' :: s from
      fun s => skipWs_cons_not ',' s (by decide)]
    rw [parseElems_cons_space, parseElems_dumps y ys hsys f rest hfy]
termination_by fuel
decreasing_by all_goals simp_wf; all_goals omega

/-- The field loop inverts the serializer on a non-empty field list. -/
theorem parseFields_dumps (k : Str) (v : Json) (fs : List (Str × Json))
    (hser : serOkFields ((k, v) :: fs) = true)
    (fuel : Nat) (rest : Str) (hfuel : jdepthFields (k, v) fs ≤ fuel) :
    parseFields fuel (dumpsField (k, v) ++ (dumpsFieldsTail fs ++ ('}' :: rest))) =
      some ((k, v) :: fs, rest) := by
  obtain ⟨f, rfl⟩ : ∃ f, fuel = f + 1 :=
    ⟨fuel - 1, by have := jdepthFields_pos (k, v) fs; omega⟩
  have hsplit : (k.all okChar = true ∧ serOk v = true) ∧ serOkFields fs = true := by
    simp only [serOkFields, Bool.and_eq_true] at hser
    exact hser
  conv_lhs => unfold parseFields
  rw [dumpsField_def]
  have hshape : ((('"' :: escBody (k, v).1) ++ (':' :: ' ' :: dumps (k, v).2)) ++
      (dumpsFieldsTail fs ++ ('}' :: rest))) =
      '"' :: (escBody k ++ (':' :: ' ' :: (dumps v ++ (dumpsFieldsTail fs ++ ('}' :: rest))))) := by
    simp [List.append_assoc]
  rw [hshape, skipWs_cons_not _ _ (by decide)]
  simp +decide only []
  rw [parseStrBody_escBody k hsplit.1.1 _]
  simp +decide only [show ∀ s : Str, skipWs (':' :: s) = ':' :: s from
    fun s => skipWs_cons_not ':' s (by decide)]
  rw [parseVal_cons_space]
  cases fs with
  | nil =>
    rw [show dumpsFieldsTail ([] : List (Str × Json)) = [] from by decide, List.nil_append]
    rw [parseVal_dumps v hsplit.1.2 f ('}' :: rest)
      (by rw [jdepthFields_nil] at hfuel; simp at hfuel; omega)
      (by exact Or.inr (Or.inr rfl))]
    have hsw : skipWs ('}' :: rest) = '}' :: rest := skipWs_cons_not _ _ (by decide)
    simp +decide [hsw]
  | cons kv2 fs2 =>
    obtain ⟨k2, v2⟩ := kv2
    have hsfs : serOkFields ((k2, v2) :: fs2) = true := hsplit.2
    have hfv : jdepth v ≤ f := by
      rw [jdepthFields_cons] at hfuel
      have := le_max_left (jdepth (k, v).2) (jdepthFields (k2, v2) fs2)
      simp at this hfuel
      omega
    have hff : jdepthFields (k2, v2) fs2 ≤ f := by
      rw [jdepthFields_cons] at hfuel
      have := le_max_right (jdepth (k, v).2) (jdepthFields (k2, v2) fs2)
      omega
    rw [dumpsFieldsTail_cons]
    have hshape2 : (dumps v ++ (((',' :: ' ' :: (dumpsField (k2, v2) ++ dumpsFieldsTail fs2))) ++
        ('}' :: rest))) =
        dumps v ++ (',' :: ' ' :: (dumpsField (k2, v2) ++ (dumpsFieldsTail fs2 ++ ('}' :: rest)))) := by
      simp [List.append_assoc]
    rw [hshape2, parseVal_dumps v hsplit.1.2 f _ hfv (by exact Or.inl rfl)]
    simp +decide only [show ∀ s : Str, skipWs (',' :: s) = ',' :: s from
      fun s => skipWs_cons_not ',' s (by decide)]
    rw [parseFields_cons_space, parseFields_dumps k2 v2 fs2 hsfs f rest hff]
termination_by fuel
decreasing_by all_goals simp_wf; all_goals omega
end

/-- Serializer output is never empty. -/
theorem dumps_length_pos (v : Json) : 1 ≤ (dumps v).length := by
  obtain ⟨c, t, hD, -, -, -⟩ := dumps_head v
  rw [hD]
  simp

mutual
/-- The depth measure is bounded by the length of the serialized text. -/
theorem jdepth_le_dumps : ∀ v : Json, jdepth v ≤ (dumps v).length
  | Json.null => by
    rw [show jdepth Json.null = 1 from by simp [jdepth]]
    exact dumps_length_pos Json.null
  | Json.bool b => by
    rw [show jdepth (Json.bool b) = 1 from by simp [jdepth]]
    exact dumps_length_pos (Json.bool b)
  | Json.num q => by
    rw [show jdepth (Json.num q) = 1 from by simp [jdepth]]
    exact dumps_length_pos (Json.num q)
  | Json.str s => by
    rw [show jdepth (Json.str s) = 1 from by simp [jdepth]]
    exact dumps_length_pos (Json.str s)
  | Json.arr [] => by
    rw [show jdepth (Json.arr []) = 1 from by simp [jdepth]]
    exact dumps_length_pos (Json.arr [])
  | Json.arr (x :: xs) => by
    rw [jdepth_arr_cons, dumps_arr_cons]
    have h := jdepthElems_le_dumps x xs
    simp only [List.length_append, List.length_cons, List.length_nil]
    omega
  | Json.obj [] => by
    rw [show jdepth (Json.obj []) = 1 from by simp [jdepth]]
    exact dumps_length_pos (Json.obj [])
  | Json.obj (kv :: fs) => by
    rw [jdepth_obj_cons, dumps_obj_cons]
    have h := jdepthFields_le_dumps kv fs
    simp only [List.length_append, List.length_cons, List.length_nil]
    omega
termination_by v => sizeOf v
decreasing_by all_goals simp_wf

/-- Element depth bounded by serialized length of the elements. -/
theorem jdepthElems_le_dumps : ∀ (x : Json) (xs : List Json),
    jdepthElems x xs ≤ 1 + (dumps x).length + (dumpsTail xs).length
  | x, [] => by
    rw [jdepthElems_nil, show dumpsTail ([] : List Json) = [] from by simp [dumpsTail]]
    have h := jdepth_le_dumps x
    simp only [List.length_nil]
    omega
  | x, y :: ys => by
    rw [jdepthElems_cons, dumpsTail_cons]
    have hx := jdepth_le_dumps x
    have hy := jdepthElems_le_dumps y ys
    simp only [List.length_append, List.length_cons]
    omega
termination_by x xs => 1 + sizeOf x + sizeOf xs
decreasing_by all_goals simp_wf; all_goals omega

/-- Field depth bounded by serialized length of the fields. -/
theorem jdepthFields_le_dumps : ∀ (kv : Str × Json) (fs : List (Str × Json)),
    jdepthFields kv fs ≤ 1 + (dumpsField kv).length + (dumpsFieldsTail fs).length
  | (k, v), [] => by
    rw [jdepthFields_nil,
      show dumpsFieldsTail ([] : List (Str × Json)) = [] from by simp [dumpsFieldsTail],
      dumpsField_def]
    have h := jdepth_le_dumps v
    have h2 : jdepth ((k, v) : Str × Json).2 = jdepth v := rfl
    rw [h2]
    simp only [List.length_append, List.length_cons, List.length_nil]
    omega
  | (k, v), kv2 :: fs2 => by
    rw [jdepthFields_cons, dumpsFieldsTail_cons, dumpsField_def]
    have hv := jdepth_le_dumps v
    have hf := jdepthFields_le_dumps kv2 fs2
    have h2 : jdepth ((k, v) : Str × Json).2 = jdepth v := rfl
    rw [h2]
    simp only [List.length_append, List.length_cons]
    omega
termination_by kv fs => 1 + sizeOf kv + sizeOf fs
decreasing_by all_goals simp_wf; all_goals omega
end

/-- Decoding inverts encoding on every representable value. -/
theorem loads_dumps (v : Json) (h : serOk v = true) : loads (dumps v) = some v := by
  have hp := parseVal_dumps v h ((dumps v).length + 1) []
    (le_trans (jdepth_le_dumps v) (by omega)) (by trivial)
  rw [List.append_nil] at hp
  unfold loads
  rw [hp]
  simp [skipWs]

/-- Serializer output is never the empty text. -/
theorem dumps_isEmpty_false (v : Json) : (dumps v).isEmpty = false := by
  have hp := dumps_length_pos v
  cases hE : dumps v with
  | nil => rw [hE] at hp; simp at hp
  | cons c t => simp

/-- The options codec of the question store is inverse: a draft written
by the insert row constructor decodes back to the same options value. -/
theorem row_dict_mkQuestionRow (nid qid : Nat) (d : Draft) (hser : serOk d.options = true) :
    row_to_question_dict (mkQuestionRow nid qid d) =
      some { id := qid, note_id := nid, knowledge_tag := d.knowledge_tag,
             q_type := d.q_type, content := d.content, options := d.options,
             answer := d.answer, analysis := d.analysis, difficulty := d.difficulty } := by
  unfold row_to_question_dict mkQuestionRow
  simp [dumps_isEmpty_false, loads_dumps d.options hser]

/-- C10. Options round-trip: a draft whose options value is
JSON-serializable, inserted by insert_question_batch as a new non-empty
content under a fresh id, is read back by get_question_by_id with an
options value equal to the draft's options (the insert-side encoding and
the read-side decoding used by every query operation are mutually
inverse, stated by the row_to_question_dict conjunct), and a stored row
whose options column is NULL or empty decodes to the empty list. -/
theorem C10_options_roundtrip (db : DB) (nid : Nat) (d : Draft)
    (hser : serOk d.options = true)
    (hcontent : ¬ d.content = [])
    (hnew : ¬ d.content ∈ existingContents db.questions)
    (hfresh : ∀ r ∈ db.questions, ¬ r.id = db.next_qid) :
    (∃ dict : QuestionDict,
      get_question_by_id (insert_question_batch db nid [d]) db.next_qid = some (some dict) ∧
      dict.options = d.options ∧ dict.content = d.content) ∧
    (∀ qid : Nat, ∃ dict : QuestionDict,
      row_to_question_dict (mkQuestionRow nid qid d) = some dict ∧
      dict.options = d.options) ∧
    (∀ r : QuestionRow, (r.options = none ∨ r.options = some []) →
      ∃ dict : QuestionDict, row_to_question_dict r = some dict ∧
        dict.options = Json.arr []) := by
  refine ⟨?_, ?_, ?_⟩
  · have hrows : insertLoop nid (existingContents db.questions) db.next_qid [d] =
        [mkQuestionRow nid db.next_qid d] := by
      simp [insertLoop, hcontent, hnew]
    have hins : insert_question_batch db nid [d] =
        { db with questions := db.questions ++ [mkQuestionRow nid db.next_qid d],
                  next_qid := db.next_qid + 1 } := by
      unfold insert_question_batch
      rw [hrows]
      simp
    have hnone : db.questions.find? (fun r => r.id == db.next_qid) = none := by
      rw [List.find?_eq_none]
      intro r hr
      simpa using hfresh r hr
    have hfind : (db.questions ++ [mkQuestionRow nid db.next_qid d]).find?
        (fun r => r.id == db.next_qid) = some (mkQuestionRow nid db.next_qid d) := by
      rw [List.find?_append, hnone]
      simp [mkQuestionRow]
    refine ⟨{ id := db.next_qid, note_id := nid, knowledge_tag := d.knowledge_tag,
              q_type := d.q_type, content := d.content, options := d.options,
              answer := d.answer, analysis := d.analysis, difficulty := d.difficulty },
      ?_, rfl, rfl⟩
    rw [hins]
    simp [get_question_by_id, hfind, row_dict_mkQuestionRow nid db.next_qid d hser]
  · intro qid
    exact ⟨_, row_dict_mkQuestionRow nid qid d hser, rfl⟩
  · intro r hr
    have hload : loads (['[', ']'] : Str) = some (Json.arr []) := by decide
    have hdict : ∀ h2 : Str, h2 = ['[', ']'] →
        ∃ dict : QuestionDict, (loads h2).map (fun ov =>
          ({ id := r.id, note_id := r.note_id, knowledge_tag := r.knowledge_tag,
             q_type := r.q_type, content := r.content, options := ov,
             answer := r.answer, analysis := r.analysis,
             difficulty := r.difficulty } : QuestionDict)) = some dict ∧
          dict.options = Json.arr [] := by
      intro h2 hh2
      subst hh2
      exact ⟨_, by rw [hload]; rfl, rfl⟩
    rcases hr with h | h
    · have := hdict ['[', ']'] rfl
      unfold row_to_question_dict
      rw [h]
      exact this
    · have := hdict ['[', ']'] rfl
      unfold row_to_question_dict
      rw [h]
      simp only [List.isEmpty_nil, if_true]
      exact this

/-- Witness instantiating the options round-trip at a one-element insert
into the empty store. -/
theorem C10_options_roundtrip_witness :
    (∃ dict : QuestionDict,
      get_question_by_id (insert_question_batch ⟨[], [], [], 1⟩ 0
        [{ content := ['x'], options := Json.arr [Json.str ['A']] }]) 1 = some (some dict) ∧
      dict.options = Json.arr [Json.str ['A']] ∧ dict.content = ['x']) ∧
    (∀ qid : Nat, ∃ dict : QuestionDict,
      row_to_question_dict (mkQuestionRow 0 qid
        { content := ['x'], options := Json.arr [Json.str ['A']] }) = some dict ∧
      dict.options = Json.arr [Json.str ['A']]) ∧
    (∀ r : QuestionRow, (r.options = none ∨ r.options = some []) →
      ∃ dict : QuestionDict, row_to_question_dict r = some dict ∧
        dict.options = Json.arr []) :=
  C10_options_roundtrip ⟨[], [], [], 1⟩ 0
    { content := ['x'], options := Json.arr [Json.str ['A']] }
    (by decide) (by decide) (by decide)
    (by intro r hr; exact absurd hr (List.not_mem_nil r))

/-- C9 counterexample: a decoded response that is a top-level list
holding one string (a JSON question array in text form) has no envelope
field, and the depth-first scan would find that string; yet the call
returns the empty list, because the envelope access raises on a non-dict
response before the fallback runs, so the promised recovery does not
happen (first half); and the language-tag strip removes the first
occurrence of the four characters j s o n anywhere in the fenced text,
here inside a question content, corrupting the payload instead of
removing a leading tag (second half). -/
theorem C9_counterexample :
    (generate_questions_from_note ("k".data)
        (some (Json.arr [Json.str (dumps (Json.arr [Json.obj
          [(("content".data), Json.str ("x".data))]]))])) = []
      ∧ extract_first_str (Json.arr [Json.str (dumps (Json.arr [Json.obj
          [(("content".data), Json.str ("x".data))]]))]) =
          some (dumps (Json.arr [Json.obj [(("content".data), Json.str ("x".data))]]))
      ∧ ¬ parseQuestionsText (dumps (Json.arr [Json.obj
          [(("content".data), Json.str ("x".data))]])) = some []
      ∧ ¬ parseQuestionsText (dumps (Json.arr [Json.obj
          [(("content".data), Json.str ("x".data))]])) = none)
    ∧ (∃ d : RawDraft,
        parseQuestionsText (btick :: btick :: btick :: '\n' ::
          (dumps (Json.arr [Json.obj [(("content".data), Json.str ("json x".data))]]) ++
           ('\n' :: btick :: btick :: btick :: []))) = some [d]
        ∧ d.content = Json.str (" x".data)
        ∧ ¬ d.content = Json.str ("json x".data)) := by
  refine ⟨⟨by decide, by decide, by decide, by decide⟩,
    ⟨{ knowledge_tag := Json.str [], q_type := Json.str [],
       content := Json.str (" x".data), options := Json.arr [],
       answer := Json.str [], analysis := Json.str [],
       difficulty := Json.str [] }, by decide, by decide, by decide⟩⟩

/-- A fold looking for an absent key returns its accumulator. -/
theorem jget_of_hasKey_false (k : Str) (fields : List (Str × Json)) :
    ∀ acc : Option Json, jhasKey fields k = false →
    fields.foldl (fun acc kv => if kv.1 = k then some kv.2 else acc) acc = acc := by
  induction fields with
  | nil => intro acc h; rfl
  | cons kv rest ih =>
    intro acc h
    rw [jhasKey, List.any_cons, Bool.or_eq_false_iff] at h
    rw [List.foldl_cons, if_neg (by simpa using h.1)]
    exact ih acc (by rw [jhasKey]; exact h.2)

/-- A key that resolves to a value is present. -/
theorem jhasKey_of_jget_some (fields : List (Str × Json)) (k : Str) (v : Json)
    (h : jget fields k = some v) : jhasKey fields k = true := by
  by_cases hh : jhasKey fields k
  · exact hh
  · exfalso
    have h2 := jget_of_hasKey_false k fields none (by simpa using hh)
    rw [jget, h2] at h
    exact Option.noConfusion h

/-- C9 amended. Generation parsing, as the code behaves: the envelope
fields output.choices[0].text then output.text are tried first and the
depth-first string scan is a fallback, but only for a response that
decodes to a mapping - a non-mapping response returns the empty list
before the scan can run; the fence cleanup leaves unfenced text alone
and on fenced text strips the backquotes and removes the first
occurrence of the four characters j s o n anywhere in the text (not only
a leading language tag); text that does not decode propagates the decode
failure, a decoded non-sequence yields the empty list, and sequence
elements are projected with per-field defaults when they are mappings
and are skipped otherwise. -/
theorem C9_generation_parsing :
    (∀ (k : Str) (v : Json), (∀ o, ¬ v = Json.obj o) →
      generate_questions_from_note k (some v) = [])
    ∧ (∀ (k : Str) o oo co cs t, ¬ k = [] →
        jget o ("output".data) = some (Json.obj oo) →
        jget oo ("choices".data) = some (Json.arr (Json.obj co :: cs)) →
        jget co ("text".data) = some (Json.str t) → ¬ t = [] →
        generate_questions_from_note k (some (Json.obj o)) = (parseQuestionsText t).getD [])
    ∧ (∀ (k : Str) o oo t, ¬ k = [] →
        jget o ("output".data) = some (Json.obj oo) →
        jget oo ("choices".data) = none →
        jget oo ("text".data) = some (Json.str t) → ¬ t = [] →
        generate_questions_from_note k (some (Json.obj o)) = (parseQuestionsText t).getD [])
    ∧ (∀ (k : Str) o s, ¬ k = [] →
        jget o ("output".data) = none →
        extract_first_str (Json.obj o) = some s → ¬ s = [] →
        generate_questions_from_note k (some (Json.obj o)) = (parseQuestionsText s).getD [])
    ∧ (∀ t : Str, ¬ t.take 3 = [btick, btick, btick] → cleanFence t = t)
    ∧ (∀ t : Str, t.take 3 = [btick, btick, btick] →
        cleanFence t = pyStrip (replaceFirst ('j' :: 's' :: 'o' :: 'n' :: []) (stripBticks t)))
    ∧ (∀ t : Str, loads (cleanFence (pyStrip t)) = none → parseQuestionsText t = none)
    ∧ (∀ (t : Str) (v : Json), loads (cleanFence (pyStrip t)) = some v →
        (∀ xs, ¬ v = Json.arr xs) → parseQuestionsText t = some [])
    ∧ (∀ (t : Str) (xs : List Json), loads (cleanFence (pyStrip t)) = some (Json.arr xs) →
        parseQuestionsText t = some (xs.filterMap draftOfJson))
    ∧ (∀ v : Json, (∀ o, ¬ v = Json.obj o) → draftOfJson v = none)
    ∧ (∀ o d, draftOfJson (Json.obj o) = some d →
        (jget o ("content".data) = none → d.content = Json.str [])
        ∧ (∀ w, jget o ("content".data) = some w → d.content = w)
        ∧ (jget o ("options".data) = none → d.options = Json.arr [])
        ∧ (∀ w, jget o ("options".data) = some w → jsonTruthy w = true → d.options = w)) := by
  have hempty : ∀ t : Str, ¬ t = [] → t.isEmpty = false := by
    intro t ht
    cases t with
    | nil => exact absurd rfl ht
    | cons a b => rfl
  refine ⟨?_, ?_, ?_, ?_, ?_, ?_, ?_, ?_, ?_, ?_, ?_⟩
  · intro k v h
    unfold generate_questions_from_note
    split
    · rfl
    · cases v with
      | obj o => exact absurd rfl (h o)
      | null => rfl
      | bool b => rfl
      | num q => rfl
      | str s => rfl
      | arr xs => rfl
  · intro k o oo co cs t hk h1 h2 h3 ht
    have hgo : getOutputText (Json.obj o) = some (some (Json.str t)) := by
      simp only [getOutputText]
      rw [h1]
      simp [h2, h3, jsonTruthy, hempty t ht]
    unfold generate_questions_from_note
    split
    · rename_i hemp
      exact absurd (by simpa using hemp) hk
    · cases hp : parseQuestionsText t with
      | none => simp [hgo, asStr, hp, Option.getD]
      | some ds => simp [hgo, asStr, hp, Option.getD]
  · intro k o oo t hk h1 h2 h3 ht
    have hgo : getOutputText (Json.obj o) = some (some (Json.str t)) := by
      simp only [getOutputText]
      rw [h1]
      simp [h2, jhasKey_of_jget_some oo ("text".data) (Json.str t) h3, h3,
        jsonTruthy, hempty t ht]
    unfold generate_questions_from_note
    split
    · rename_i hemp
      exact absurd (by simpa using hemp) hk
    · cases hp : parseQuestionsText t with
      | none => simp [hgo, asStr, hp, Option.getD]
      | some ds => simp [hgo, asStr, hp, Option.getD]
  · intro k o s hk h1 h2 hs
    have hgo : getOutputText (Json.obj o) = some (some (Json.str s)) := by
      simp only [getOutputText]
      simp [h1, h2, hempty s hs]
    unfold generate_questions_from_note
    split
    · rename_i hemp
      exact absurd (by simpa using hemp) hk
    · cases hp : parseQuestionsText s with
      | none => simp [hgo, asStr, hp, Option.getD]
      | some ds => simp [hgo, asStr, hp, Option.getD]
  · intro t h
    unfold cleanFence
    rw [if_neg h]
  · intro t h
    unfold cleanFence
    rw [if_pos h]
  · intro t h
    unfold parseQuestionsText
    rw [h]
  · intro t v h1 h2
    unfold parseQuestionsText
    rw [h1]
    cases v with
    | arr xs => exact absurd rfl (h2 xs)
    | null => rfl
    | bool b => rfl
    | num q => rfl
    | str s => rfl
    | obj fs => rfl
  · intro t xs h
    unfold parseQuestionsText
    rw [h]
  · intro v h
    cases v with
    | obj o => exact absurd rfl (h o)
    | null => rfl
    | bool b => rfl
    | num q => rfl
    | str s => rfl
    | arr xs => rfl
  · intro o d h
    rw [show draftOfJson (Json.obj o) = some {
        knowledge_tag := jgetD o ("knowledge_tag".data) (Json.str []),
        q_type := jgetD o ("q_type".data) (Json.str []),
        content := jgetD o ("content".data) (Json.str []),
        options :=
          (let v := jgetD o ("options".data) (Json.arr []);
           if jsonTruthy v then v else Json.arr []),
        answer := jgetD o ("answer".data) (Json.str []),
        analysis := jgetD o ("analysis".data) (Json.str []),
        difficulty := jgetD o ("difficulty".data) (Json.str []) } from rfl,
      Option.some.injEq] at h
    subst h
    refine ⟨?_, ?_, ?_, ?_⟩
    · intro hn
      simp [jgetD, hn]
    · intro w hw
      simp [jgetD, hw]
    · intro hn
      simp [jgetD, hn, jsonTruthy]
    · intro w hw htr
      simp [jgetD, hw, htr]

/-- Witness instantiating the dedup preservation at one batch over the
empty store. -/
theorem C1_insert_batch_dedup_witness :
    ContentInv (runBatches ⟨[], [], [], 1⟩ [(0, [{ content := ['x'] }])])
    ∧ (∀ c : Str, c ≠ [] →
        contentCount (runBatches ⟨[], [], [], 1⟩ [(0, [{ content := ['x'] }])]) c =
          (if 0 < contentCount ⟨[], [], [], 1⟩ c ∨
              ∃ b ∈ [((0 : Nat), [({ content := ['x'] } : Draft)])], ∃ d ∈ b.2, d.content = c
           then 1 else 0))
    ∧ contentCount (runBatches ⟨[], [], [], 1⟩ [(0, [{ content := ['x'] }])]) [] =
        contentCount ⟨[], [], [], 1⟩ [] :=
  C1_insert_batch_dedup [(0, [{ content := ['x'] }])] ⟨[], [], [], 1⟩
    (by unfold ContentInv; decide)

/-- Witness instantiating the query contract at the identity reordering
of the empty store. -/
theorem C6_query_by_knowledge_witness :
    ([] : List QuestionDict).length ≤ 5
    ∧ (∀ nid, (none : Option Nat) = some nid →
        resolveScope ⟨[], [], [], 1⟩ none none = some nid)
    ∧ ((none : Option Nat) = none → (none : Option Str) = some ("latest".data) →
        (⟨[], [], [], 1⟩ : DB).notes ≠ [] →
        ∃ m, latestNote (⟨[], [], [], 1⟩ : DB).notes = some m
          ∧ m ∈ (⟨[], [], [], 1⟩ : DB).notes
          ∧ (∀ x ∈ (⟨[], [], [], 1⟩ : DB).notes, x.created_at ≤ m.created_at)
          ∧ resolveScope ⟨[], [], [], 1⟩ none none = some m.id)
    ∧ ((none : Option Nat) = none → (none : Option Str) ≠ some ("latest".data) →
        resolveScope ⟨[], [], [], 1⟩ none none = none)
    ∧ (∀ d ∈ ([] : List QuestionDict), ∃ row ∈ (⟨[], [], [], 1⟩ : DB).questions,
        row_to_question_dict row = some d
        ∧ (∀ nid, resolveScope ⟨[], [], [], 1⟩ none none = some nid → row.note_id = nid)
        ∧ (([] : List Str) ≠ [] → row.knowledge_tag ∈ ([] : List Str))
        ∧ (∀ t, (none : Option Str) = some t →
            (t = ("single_choice".data) ∨ t = ("short_answer".data)) → row.q_type = t)) :=
  C6_query_by_knowledge (fun l => l) (fun l => List.Perm.refl l)
    ⟨[], [], [], 1⟩ [] 5 none none none [] (by decide)

/-- Witness instantiating the delete cascade on the empty store. -/
theorem C7_delete_note_cascade_witness :
    (delete_note ⟨[], [], [], 1⟩ 0).notes =
        ((⟨[], [], [], 1⟩ : DB).notes).filter (fun m => !(m.id == 0))
    ∧ (delete_note ⟨[], [], [], 1⟩ 0).questions =
        ((⟨[], [], [], 1⟩ : DB).questions).filter (fun q => !(q.note_id == 0))
    ∧ (∀ a ∈ (⟨[], [], [], 1⟩ : DB).answers,
        a ∈ (delete_note ⟨[], [], [], 1⟩ 0).answers ↔
          ¬ ∃ q ∈ (⟨[], [], [], 1⟩ : DB).questions, q.note_id = 0 ∧ q.id = a.question_id)
    ∧ (∀ a ∈ (delete_note ⟨[], [], [], 1⟩ 0).answers, a ∈ (⟨[], [], [], 1⟩ : DB).answers)
    ∧ (∀ a ∈ (⟨[], [], [], 1⟩ : DB).answers,
        (∃ q ∈ (⟨[], [], [], 1⟩ : DB).questions, q.id = a.question_id ∧ q.note_id ≠ 0) →
          a ∈ (delete_note ⟨[], [], [], 1⟩ 0).answers) :=
  C7_delete_note_cascade ⟨[], [], [], 1⟩ 0 (by decide)

end AiReview
